import Mathlib

/-
Verification of the fastlaw CGA parser (src/parse_cga_to_sqlite.py).

Python strings are modelled as lists of characters (`Str`).  Casing and
character classes are modelled at the ASCII level, which covers the
designators, labels and identifiers this program manipulates.  SQLite NULL
is modelled with `Option`.
-/

set_option maxHeartbeats 1000000

namespace FastLaw

/-- Python strings, modelled as lists of characters. -/
abbrev Str := List Char

/-- Characters treated as whitespace by Python's str.split / str.strip and
by the regex class \s (the ASCII and Unicode whitespace code points). -/
def pySpace (c : Char) : Bool :=
  c == ' ' || c == '\t' || c == '\n' || c == Char.ofNat 11 || c == Char.ofNat 12 ||
  c == '\r' || c == Char.ofNat 28 || c == Char.ofNat 29 || c == Char.ofNat 30 ||
  c == Char.ofNat 31 || c == Char.ofNat 133 || c == Char.ofNat 160 ||
  c == Char.ofNat 5760 || (8192 ≤ c.toNat && c.toNat ≤ 8202) ||
  c == Char.ofNat 8232 || c == Char.ofNat 8233 || c == Char.ofNat 8239 ||
  c == Char.ofNat 8287 || c == Char.ofNat 12288

/-- Characters at which Python's str.splitlines breaks a line ("\r\n" is
additionally consumed as one break by the splitter itself). -/
def lineBreak (c : Char) : Bool :=
  c == '\n' || c == '\r' || c == Char.ofNat 11 || c == Char.ofNat 12 ||
  c == Char.ofNat 28 || c == Char.ofNat 29 || c == Char.ofNat 30 ||
  c == Char.ofNat 133 || c == Char.ofNat 8232 || c == Char.ofNat 8233

/-- Python's str.strip(): drop whitespace from both ends. -/
def pyStrip (s : Str) : Str :=
  ((s.dropWhile pySpace).reverse.dropWhile pySpace).reverse

/-- A character is lowercased as Python's str.lower does on ASCII input;
characters outside A-Z are left unchanged in this model. -/
def lowerChar (c : Char) : Char :=
  if h : 65 ≤ c.toNat ∧ c.toNat ≤ 90 then
    Char.ofNatAux (c.toNat + 32) (Or.inl (by omega))
  else c

/-- A character is uppercased as Python's str.upper does on ASCII input. -/
def upperChar (c : Char) : Char :=
  if h : 97 ≤ c.toNat ∧ c.toNat ≤ 122 then
    Char.ofNatAux (c.toNat - 32) (Or.inl (by omega))
  else c

/-- ASCII digit, the regex class [0-9]. -/
def isDig (c : Char) : Bool := 48 ≤ c.toNat && c.toNat ≤ 57

/-- ASCII uppercase letter. -/
def isUpperAscii (c : Char) : Bool := 65 ≤ c.toNat && c.toNat ≤ 90

/-- ASCII lowercase letter. -/
def isLowerAscii (c : Char) : Bool := 97 ≤ c.toNat && c.toNat ≤ 122

/-- ASCII letter, the regex class [a-z] under re.IGNORECASE. -/
def isAlphaAscii (c : Char) : Bool := isUpperAscii c || isLowerAscii c

/-- Numeric value of an ASCII digit string. -/
def digitsToNat (s : Str) : Nat := s.foldl (fun a c => a * 10 + (c.toNat - 48)) 0

/-- Python's str(int(s)) for a digit string s: leading zeros are removed,
an all-zero string becomes "0". -/
def pyIntStr (s : Str) : Str :=
  if (s.dropWhile (· == '0')).isEmpty then ['0'] else s.dropWhile (· == '0')

/-- Python code-point order on strings (the comparison used by sorting and
by tuple comparison of the key parts). -/
def strLt : Str → Str → Bool
  | [], [] => false
  | [], _ :: _ => true
  | _ :: _, [] => false
  | a :: as, b :: bs => if a < b then true else if a == b then strLt as bs else false

/-- One element of the _natural_key result: Python's (0, int(part)) or
(1, part.lower()). -/
inductive NatKeyPart where
  | num (n : Nat)
  | str (s : Str)
deriving DecidableEq

/-- Python's `<` on key elements (tuples compare componentwise, and the
leading 0/1 tag already separates the two shapes). -/
def partLt : NatKeyPart → NatKeyPart → Bool
  | .num a, .num b => a < b
  | .num _, .str _ => true
  | .str _, .num _ => false
  | .str s, .str t => strLt s t

/-- Python's `==` on key elements. -/
def partEq : NatKeyPart → NatKeyPart → Bool
  | .num a, .num b => a == b
  | .str s, .str t => s == t
  | _, _ => false

/-- Python's `<` on key lists (lexicographic, a strict prefix is smaller). -/
def keyLt : List NatKeyPart → List NatKeyPart → Bool
  | [], [] => false
  | [], _ :: _ => true
  | _ :: _, [] => false
  | a :: as, b :: bs => if partLt a b then true else if partEq a b then keyLt as bs else false

/-- Scanner state for natSplit: scanning a plain part, just after a
backslash, or inside a separator (the reversed separator text so far). -/
inductive NsState where
  | norm
  | bs
  | sep (revSep : Str)

/-- The separator scan of _natural_key.  The source writes
re.split(r"(\\d+)", value): inside a raw string that regex matches a literal
backslash followed by one or more letters 'd' — not a digit run.  Parts and
captured separators are both returned, as re.split does for a pattern with
one capture group.  The scan is written as a character-at-a-time state
machine so that it is structurally recursive. -/
def natSplitGo : Str → NsState → Str → List Str
  | [], .norm, acc => [acc.reverse]
  | [], .bs, acc => [('\\' :: acc).reverse]
  | [], .sep rs, acc => [acc.reverse, rs.reverse, []]
  | c :: rest, .norm, acc =>
    if c == '\\' then natSplitGo rest .bs acc
    else natSplitGo rest .norm (c :: acc)
  | c :: rest, .bs, acc =>
    if c == 'd' then natSplitGo rest (.sep ['d', '\\']) acc
    else if c == '\\' then natSplitGo rest .bs ('\\' :: acc)
    else natSplitGo rest .norm (c :: '\\' :: acc)
  | c :: rest, .sep rs, acc =>
    if c == 'd' then natSplitGo rest (.sep ('d' :: rs)) acc
    else if c == '\\' then acc.reverse :: rs.reverse :: natSplitGo rest .bs []
    else acc.reverse :: rs.reverse :: natSplitGo rest .norm [c]

/-- re.split(r"(\\d+)", value) with the capture group kept, as _natural_key
performs it. -/
def natSplit (value : Str) : List Str := natSplitGo value .norm []

/-- Python's s.isdigit() restricted to ASCII digits: nonempty and all
digits (the empty string is not a digit string). -/
def pyIsDigit (s : Str) : Bool := !s.isEmpty && s.all isDig

/-- _natural_key(value) from src/parse_cga_to_sqlite.py, including the
buggy separator pattern (see natSplit). -/
def naturalKey (value : Str) : List NatKeyPart :=
  (natSplit value).map fun part =>
    if pyIsDigit part then .num (digitsToNat part) else .str (part.map lowerChar)

/-- Stable insertion into an ascending run, modelling the placement that
Python's stable sort gives an element relative to a sorted rest. -/
def insertSorted (le : α → α → Bool) (a : α) : List α → List α
  | [] => [a]
  | b :: bs => if le a b then a :: b :: bs else b :: insertSorted le a bs

/-- Stable ascending sort (insertion sort).  Python's list.sort / sorted is
stable and ascending, and a stable ascending sort is unique, so this models
sorted(values, key=...). -/
def stableSort (le : α → α → Bool) : List α → List α
  | [] => []
  | a :: as => insertSorted le a (stableSort le as)

/-- sorted(values, key=_natural_key): ascending and stable, where
a ≤ b means not (key b < key a). -/
def sortByNaturalKey (values : List Str) : List Str :=
  stableSort (fun a b => !keyLt (naturalKey b) (naturalKey a)) values

/-- C2, code bug.  The spec claims sorting ["2","10","3a","3"] by
_natural_key yields ["2","3","3a","10"].  Because _natural_key splits on the
raw-string pattern r"(\\d+)" — a literal backslash followed by 'd's — the
string "3a" is never split into the runs ("3","a"); its key is the single
string part ("3a"), which Python orders after every all-digit key, so the
code actually yields ["2","3","10","3a"]. -/
theorem naturalKey_sort_c2_bug :
    sortByNaturalKey ["2".toList, "10".toList, "3a".toList, "3".toList] =
      ["2".toList, "3".toList, "10".toList, "3a".toList] ∧
    sortByNaturalKey ["2".toList, "10".toList, "3a".toList, "3".toList] ≠
      ["2".toList, "3".toList, "3a".toList, "10".toList] := by
  constructor
  · decide
  · decide

/-- The anchored match of SECTION-designator pattern
r"^0*([0-9]+)([a-z]*)$" with re.IGNORECASE, shared by normalize_designator,
format_designator_display and format_designator_padded: greedy leading
zeros, then the two captured runs; when no digit follows the zeros the
greedy 0* backtracks by one so the last zero becomes group 1. -/
def matchDes (s : Str) : Option (Str × Str) :=
  if (((s.dropWhile (· == '0')).dropWhile isDig).dropWhile isAlphaAscii).isEmpty = false then
    none
  else if ((s.dropWhile (· == '0')).takeWhile isDig).isEmpty = false then
    some ((s.dropWhile (· == '0')).takeWhile isDig,
      ((s.dropWhile (· == '0')).dropWhile isDig).takeWhile isAlphaAscii)
  else if (s.takeWhile (· == '0')).isEmpty = false then
    some (['0'], ((s.dropWhile (· == '0')).dropWhile isDig).takeWhile isAlphaAscii)
  else none

/-- normalize_designator from src/parse_cga_to_sqlite.py. -/
def normalizeDesignator (value : Str) : Str :=
  if value.isEmpty then value
  else
    match matchDes value with
    | none => value.map lowerChar
    | some (ds, ls) => pyIntStr ds ++ ls.map lowerChar

/-- format_designator_display from src/parse_cga_to_sqlite.py. -/
def formatDesignatorDisplay (value : Str) : Str :=
  if value.isEmpty then value
  else
    match matchDes value with
    | none => value.map upperChar
    | some (ds, ls) => pyIntStr ds ++ ls.map upperChar

/-- Python's str.zfill for unsigned strings: pad with zeros on the left to
the requested width. -/
def zfill (w : Nat) (s : Str) : Str :=
  if s.length < w then List.replicate (w - s.length) '0' ++ s else s

/-- format_designator_padded from src/parse_cga_to_sqlite.py (width is the
keyword parameter, 4 at every call site). -/
def formatDesignatorPadded (width : Nat) (value : Str) : Str :=
  if value.isEmpty then value
  else
    match matchDes value with
    | none => value.map lowerChar
    | some (ds, ls) => zfill width ds ++ ls.map lowerChar

theorem toNat_ofNatAux (n : Nat) (h : n.isValidChar) : (Char.ofNatAux n h).toNat = n := rfl

theorem char_eq_of_toNat_eq {c d : Char} (h : c.toNat = d.toNat) : c = d :=
  Char.ext (UInt32.ext h)

theorem toNat_lowerChar (c : Char) :
    (lowerChar c).toNat = if 65 ≤ c.toNat ∧ c.toNat ≤ 90 then c.toNat + 32 else c.toNat := by
  unfold lowerChar
  split <;> rfl

theorem toNat_upperChar (c : Char) :
    (upperChar c).toNat = if 97 ≤ c.toNat ∧ c.toNat ≤ 122 then c.toNat - 32 else c.toNat := by
  unfold upperChar
  split <;> rfl

theorem char_beq_iff_toNat {c d : Char} : (c == d) = true ↔ c.toNat = d.toNat := by
  constructor
  · intro h
    rw [beq_iff_eq] at h
    rw [h]
  · intro h
    rw [beq_iff_eq]
    exact char_eq_of_toNat_eq h

theorem beq_char_eq_decide (c d : Char) : (c == d) = decide (c.toNat = d.toNat) := by
  by_cases h : c.toNat = d.toNat
  · simp [char_beq_iff_toNat.mpr h, h]
  · simp only [decide_eq_false h]
    by_cases h2 : (c == d) = true
    · exact absurd (char_beq_iff_toNat.mp h2) h
    · simp at h2
      simp [h2]

theorem isDig_lowerChar (c : Char) : isDig (lowerChar c) = isDig c := by
  unfold isDig
  rw [toNat_lowerChar]
  split
  · next h =>
    have h1 : ¬ (c.toNat + 32 ≤ 57) := by omega
    have h2 : ¬ (48 ≤ c.toNat) ∨ ¬ (c.toNat ≤ 57) := by omega
    rcases h2 with h2 | h2 <;> simp [h1, h2]
  · rfl

theorem isDig_upperChar (c : Char) : isDig (upperChar c) = isDig c := by
  unfold isDig
  rw [toNat_upperChar]
  split
  · next h =>
    have h1 : ¬ (48 ≤ c.toNat - 32) ∨ ¬ (c.toNat - 32 ≤ 57) := by omega
    have h2 : ¬ (48 ≤ c.toNat) ∨ ¬ (c.toNat ≤ 57) := by omega
    rcases h1 with h1 | h1 <;> rcases h2 with h2 | h2 <;> simp [h1, h2]
  · rfl

theorem isAlphaAscii_lowerChar (c : Char) : isAlphaAscii (lowerChar c) = isAlphaAscii c := by
  unfold isAlphaAscii isUpperAscii isLowerAscii
  rw [toNat_lowerChar]
  split
  · next h =>
    have h1 : 97 ≤ c.toNat + 32 ∧ c.toNat + 32 ≤ 122 := by omega
    have h2 : 65 ≤ c.toNat ∧ c.toNat ≤ 90 := h
    simp [h1.1, h1.2, h2.1, h2.2]
  · rfl

theorem isAlphaAscii_upperChar (c : Char) : isAlphaAscii (upperChar c) = isAlphaAscii c := by
  unfold isAlphaAscii isUpperAscii isLowerAscii
  rw [toNat_upperChar]
  split
  · next h =>
    have h1 : 65 ≤ c.toNat - 32 ∧ c.toNat - 32 ≤ 90 := by omega
    have h2 : 97 ≤ c.toNat ∧ c.toNat ≤ 122 := h
    simp [h1.1, h1.2, h2.1, h2.2]
  · rfl

theorem beq_zero_eq (c : Char) : (c == '0') = decide (c.toNat = 48) :=
  beq_char_eq_decide c '0'

theorem zero_beq_lowerChar (c : Char) : (lowerChar c == '0') = (c == '0') := by
  rw [beq_zero_eq, beq_zero_eq, toNat_lowerChar]
  split
  · next h =>
    rw [decide_eq_false (by omega : ¬ (c.toNat + 32 = 48)),
      decide_eq_false (by omega : ¬ (c.toNat = 48))]
  · rfl

theorem zero_beq_upperChar (c : Char) : (upperChar c == '0') = (c == '0') := by
  rw [beq_zero_eq, beq_zero_eq, toNat_upperChar]
  split
  · next h =>
    rw [decide_eq_false (by omega : ¬ (c.toNat - 32 = 48)),
      decide_eq_false (by omega : ¬ (c.toNat = 48))]
  · rfl

theorem lower_upper_lower (c : Char) : lowerChar (upperChar (lowerChar c)) = lowerChar c := by
  apply char_eq_of_toNat_eq
  simp only [toNat_lowerChar, toNat_upperChar]
  split_ifs <;> omega

theorem tw_append_all {α : Type} {p : α → Bool} {a : List α} (b : List α) (h : ∀ c ∈ a, p c = true) :
    (a ++ b).takeWhile p = a ++ b.takeWhile p := by
  induction a with
  | nil => rfl
  | cons x xs ih =>
    have hx : p x = true := h x (List.mem_cons_self x xs)
    simp only [List.cons_append, List.takeWhile_cons, hx, if_true]
    rw [ih fun c hc => h c (List.mem_cons_of_mem x hc)]

theorem dw_append_all {α : Type} {p : α → Bool} {a : List α} (b : List α) (h : ∀ c ∈ a, p c = true) :
    (a ++ b).dropWhile p = b.dropWhile p := by
  induction a with
  | nil => rfl
  | cons x xs ih =>
    have hx : p x = true := h x (List.mem_cons_self x xs)
    simp only [List.cons_append, List.dropWhile_cons, hx, if_true]
    exact ih fun c hc => h c (List.mem_cons_of_mem x hc)

theorem mem_of_takeWhile {α : Type} {p : α → Bool} {l : List α} {c : α}
    (h : c ∈ l.takeWhile p) : p c = true := by
  induction l with
  | nil => simp [List.takeWhile] at h
  | cons x xs ih =>
    by_cases hx : p x
    · simp only [List.takeWhile_cons, hx, if_true, List.mem_cons] at h
      rcases h with h | h
      · rw [h]; exact hx
      · exact ih h
    · rw [List.takeWhile_cons, if_neg hx] at h
      simp at h

theorem tw_all_eq {α : Type} {p : α → Bool} {l : List α} (h : ∀ c ∈ l, p c = true) :
    l.takeWhile p = l := by
  induction l with
  | nil => rfl
  | cons x xs ih =>
    have hx : p x = true := h x (List.mem_cons_self x xs)
    simp only [List.takeWhile_cons, hx, if_true]
    rw [ih fun c hc => h c (List.mem_cons_of_mem x hc)]

theorem dw_all_eq {α : Type} {p : α → Bool} {l : List α} (h : ∀ c ∈ l, p c = false) :
    l.dropWhile p = l := by
  cases l with
  | nil => rfl
  | cons x xs =>
    have hx : p x = false := h x (List.mem_cons_self x xs)
    simp [List.dropWhile_cons, hx]

theorem dw_head_false {α : Type} {p : α → Bool} {l t : List α} {c : α}
    (h : l.dropWhile p = c :: t) : p c = false := by
  induction l with
  | nil => simp [List.dropWhile] at h
  | cons x xs ih =>
    by_cases hx : p x
    · simp only [List.dropWhile_cons, hx, if_true] at h
      exact ih h
    · simp only [List.dropWhile_cons, hx, if_false] at h
      cases h
      simpa using hx

theorem tw_nil_dw_eq {α : Type} {p : α → Bool} {l : List α} (h : l.takeWhile p = []) :
    l.dropWhile p = l := by
  cases l with
  | nil => rfl
  | cons x xs =>
    by_cases hx : p x
    · simp [List.takeWhile_cons, hx] at h
    · simp [List.dropWhile_cons, hx]

theorem tw_all_false_nil {α : Type} {p : α → Bool} {l : List α} (h : ∀ c ∈ l, p c = false) :
    l.takeWhile p = [] := by
  cases l with
  | nil => rfl
  | cons x xs => simp [List.takeWhile_cons, h x (List.mem_cons_self x xs)]

theorem dw_all_true_nil {α : Type} {p : α → Bool} {l : List α} (h : ∀ c ∈ l, p c = true) :
    l.dropWhile p = [] := by
  induction l with
  | nil => rfl
  | cons x xs ih =>
    simp only [List.dropWhile_cons, h x (List.mem_cons_self x xs), if_true]
    exact ih fun c hc => h c (List.mem_cons_of_mem x hc)

theorem isEmpty_map (f : Char → Char) (l : Str) : (l.map f).isEmpty = l.isEmpty := by
  cases l <;> rfl

theorem ne_nil_of_isEmpty_false {α : Type} {l : List α} (h : l.isEmpty = false) : l ≠ [] := by
  cases l
  · simp at h
  · simp

theorem tw_head_eq {α : Type} {p : α → Bool} {l t : List α} {c : α}
    (h : l.takeWhile p = c :: t) : ∃ u, l = c :: u := by
  cases l with
  | nil => simp [List.takeWhile] at h
  | cons x xs =>
    by_cases hx : p x
    · simp only [List.takeWhile_cons, hx, if_true, List.cons.injEq] at h
      exact ⟨xs, by rw [h.1]⟩
    · simp [List.takeWhile_cons, hx] at h

theorem alpha_not_dig {c : Char} (h : isAlphaAscii c = true) : isDig c = false := by
  unfold isAlphaAscii isUpperAscii isLowerAscii at h
  unfold isDig
  simp only [Bool.or_eq_true, Bool.and_eq_true, decide_eq_true_eq] at h
  rcases h with h | h
  · rw [decide_eq_false (by omega : ¬ (c.toNat ≤ 57)), Bool.and_false]
  · rw [decide_eq_false (by omega : ¬ (c.toNat ≤ 57)), Bool.and_false]

theorem alpha_ne_zero {c : Char} (h : isAlphaAscii c = true) : (c == '0') = false := by
  unfold isAlphaAscii isUpperAscii isLowerAscii at h
  rw [beq_zero_eq]
  simp only [Bool.or_eq_true, Bool.and_eq_true, decide_eq_true_eq] at h
  rcases h with h | h
  · rw [decide_eq_false (by omega : ¬ (c.toNat = 48))]
  · rw [decide_eq_false (by omega : ¬ (c.toNat = 48))]

/-- Structural facts about a successful designator match: the digit group
is nonempty, all digits, and has no leading zero unless it is exactly "0";
the suffix group is all ASCII letters. -/
theorem matchDes_inv {s ds ls : Str} (h : matchDes s = some (ds, ls)) :
    ds ≠ [] ∧ (∀ c ∈ ds, isDig c = true) ∧ (∀ c ∈ ls, isAlphaAscii c = true) ∧
      (ds = ['0'] ∨ ∃ c cs, ds = c :: cs ∧ (c == '0') = false) := by
  unfold matchDes at h
  split_ifs at h with h3 h1 h2
  · cases h
    refine ⟨ne_nil_of_isEmpty_false h1, fun c hc => mem_of_takeWhile hc,
      fun c hc => mem_of_takeWhile hc, ?_⟩
    right
    rcases he : (s.dropWhile (· == '0')).takeWhile isDig with _ | ⟨c, t⟩
    · rw [he] at h1
      simp at h1
    · obtain ⟨u, hu⟩ := tw_head_eq he
      exact ⟨c, t, rfl, @dw_head_false Char (fun x : Char => x == '0') s u c hu⟩
  · cases h
    refine ⟨by simp, ?_, fun c hc => mem_of_takeWhile hc, Or.inl rfl⟩
    intro c hc
    rw [List.mem_singleton] at hc
    subst hc
    decide

/-- A canonical digits-then-letters string matches the designator pattern
with exactly those two groups. -/
theorem matchDes_canon {ds ls : Str} (hne : ds ≠ []) (hdig : ∀ c ∈ ds, isDig c = true)
    (hal : ∀ c ∈ ls, isAlphaAscii c = true)
    (hz : ds = ['0'] ∨ ∃ c cs, ds = c :: cs ∧ (c == '0') = false) :
    matchDes (ds ++ ls) = some (ds, ls) := by
  have hlsdig : ∀ c ∈ ls, isDig c = false := fun c hc => alpha_not_dig (hal c hc)
  have hlszero : ∀ c ∈ ls, (c == '0') = false := fun c hc => alpha_ne_zero (hal c hc)
  have e5 : ls.takeWhile isDig = [] := tw_all_false_nil hlsdig
  have e6 : ls.dropWhile isDig = ls := dw_all_eq hlsdig
  have e7 : ls.takeWhile isAlphaAscii = ls := tw_all_eq hal
  have e8 : ls.dropWhile isAlphaAscii = [] := dw_all_true_nil hal
  rcases hz with hz | ⟨c, cs, hcs, hc0⟩
  · subst hz
    have hA : ((['0'] : Str) ++ ls).dropWhile (· == '0') = ls := by
      rw [List.singleton_append, List.dropWhile_cons]
      rw [if_pos (by decide : ((fun x : Char => x == '0') '0') = true)]
      exact dw_all_eq hlszero
    have hZ : ((['0'] : Str) ++ ls).takeWhile (· == '0') = ['0'] := by
      rw [List.singleton_append, List.takeWhile_cons]
      rw [if_pos (by decide : ((fun x : Char => x == '0') '0') = true)]
      rw [tw_all_false_nil hlszero]
    unfold matchDes
    rw [hA, e5, e6, e7, e8, hZ]
    rfl
  · subst hcs
    have hA : ((c :: cs) ++ ls).dropWhile (· == '0') = (c :: cs) ++ ls := by
      rw [List.cons_append, List.dropWhile_cons]
      simp only [hc0]
      rw [if_neg (by simp)]
    have hD : ((c :: cs) ++ ls).takeWhile isDig = c :: cs := by
      rw [tw_append_all ls hdig, e5, List.append_nil]
    have hR2 : ((c :: cs) ++ ls).dropWhile isDig = ls := by
      rw [dw_append_all ls hdig, e6]
    unfold matchDes
    rw [hA, hD, hR2, e7, e8]
    rfl

/-- matchDes commutes with a character map that preserves the three
character classes the pattern consults. -/
theorem matchDes_map (f : Char → Char) (h0 : ∀ c, (f c == '0') = (c == '0'))
    (hd : ∀ c, isDig (f c) = isDig c) (ha : ∀ c, isAlphaAscii (f c) = isAlphaAscii c)
    (s : Str) :
    matchDes (s.map f) = (matchDes s).map (fun p => (p.1.map f, p.2.map f)) := by
  have e0 : ((fun c : Char => c == '0') ∘ f) = (fun c : Char => c == '0') := funext h0
  have ed : (isDig ∘ f) = isDig := funext hd
  have ea : (isAlphaAscii ∘ f) = isAlphaAscii := funext ha
  have f0 : f '0' = '0' := by
    have := h0 '0'
    simp at this
    exact this
  unfold matchDes
  simp only [List.takeWhile_map, List.dropWhile_map, e0, ed, ea, isEmpty_map]
  split_ifs <;> simp [f0]

theorem map_lower_upper_lower (s : Str) :
    (((s.map lowerChar).map upperChar).map lowerChar) = s.map lowerChar := by
  rw [List.map_map, List.map_map]
  apply List.map_congr_left
  intro c _
  exact lower_upper_lower c

theorem isEmpty_false_of_ne_nil {α : Type} {l : List α} (h : l ≠ []) : l.isEmpty = false := by
  cases l
  · exact absurd rfl h
  · rfl

theorem normalizeDes_eq_none {d : Str} (h1 : d.isEmpty = false) (h2 : matchDes d = none) :
    normalizeDesignator d = d.map lowerChar := by
  unfold normalizeDesignator
  rw [if_neg (by rw [h1]; exact Bool.false_ne_true), h2]

theorem normalizeDes_eq_some {d ds ls : Str} (h1 : d.isEmpty = false)
    (h2 : matchDes d = some (ds, ls)) :
    normalizeDesignator d = pyIntStr ds ++ ls.map lowerChar := by
  unfold normalizeDesignator
  rw [if_neg (by rw [h1]; exact Bool.false_ne_true), h2]

theorem formatDisp_eq_none {d : Str} (h1 : d.isEmpty = false) (h2 : matchDes d = none) :
    formatDesignatorDisplay d = d.map upperChar := by
  unfold formatDesignatorDisplay
  rw [if_neg (by rw [h1]; exact Bool.false_ne_true), h2]

theorem formatDisp_eq_some {d ds ls : Str} (h1 : d.isEmpty = false)
    (h2 : matchDes d = some (ds, ls)) :
    formatDesignatorDisplay d = pyIntStr ds ++ ls.map upperChar := by
  unfold formatDesignatorDisplay
  rw [if_neg (by rw [h1]; exact Bool.false_ne_true), h2]

/-- C6, confirmed: for every designator string d,
normalize(display(normalize(d))) == normalize(d), where normalize is
normalize_designator and display is format_designator_display. -/
theorem designator_roundtrip (d : Str) :
    normalizeDesignator (formatDesignatorDisplay (normalizeDesignator d)) =
      normalizeDesignator d := by
  by_cases hd0 : d.isEmpty = true
  · have hnil : d = [] := by
      cases d
      · rfl
      · simp at hd0
    subst hnil
    rfl
  · have hd : d.isEmpty = false := by
      revert hd0
      cases d.isEmpty <;> simp
    rcases hm : matchDes d with _ | ⟨ds, ls⟩
    · have hn := normalizeDes_eq_none hd hm
      have hmap1 : matchDes (d.map lowerChar) = none := by
        rw [matchDes_map lowerChar zero_beq_lowerChar isDig_lowerChar isAlphaAscii_lowerChar, hm]
        rfl
      have hne1 : (d.map lowerChar).isEmpty = false := by
        rw [isEmpty_map]
        exact hd
      have hdisp := formatDisp_eq_none hne1 hmap1
      have hmap2 : matchDes ((d.map lowerChar).map upperChar) = none := by
        rw [matchDes_map upperChar zero_beq_upperChar isDig_upperChar isAlphaAscii_upperChar,
          hmap1]
        rfl
      have hne2 : ((d.map lowerChar).map upperChar).isEmpty = false := by
        rw [isEmpty_map, isEmpty_map]
        exact hd
      rw [hn, hdisp, normalizeDes_eq_none hne2 hmap2, map_lower_upper_lower]
    · obtain ⟨hne, hdig, hal, hz⟩ := matchDes_inv hm
      have hint : pyIntStr ds = ds := by
        rcases hz with hz | ⟨c, cs, hcs, hc0⟩
        · subst hz
          rfl
        · subst hcs
          have hdw : (c :: cs).dropWhile (· == '0') = c :: cs := by
            rw [List.dropWhile_cons]
            simp only [hc0]
            rw [if_neg (by simp)]
          unfold pyIntStr
          rw [hdw, if_neg (by simp)]
      have hn : normalizeDesignator d = ds ++ ls.map lowerChar := by
        rw [normalizeDes_eq_some hd hm, hint]
      have hlsl : ∀ c ∈ ls.map lowerChar, isAlphaAscii c = true := by
        intro c hc
        obtain ⟨x, hx, hfx⟩ := List.mem_map.mp hc
        rw [← hfx, isAlphaAscii_lowerChar]
        exact hal x hx
      have hm2 : matchDes (ds ++ ls.map lowerChar) = some (ds, ls.map lowerChar) :=
        matchDes_canon hne hdig hlsl hz
      have hne2 : (ds ++ ls.map lowerChar).isEmpty = false := by
        cases ds
        · exact absurd rfl hne
        · rfl
      have hdisp : formatDesignatorDisplay (ds ++ ls.map lowerChar) =
          ds ++ (ls.map lowerChar).map upperChar := by
        rw [formatDisp_eq_some hne2 hm2, hint]
      have hlsu : ∀ c ∈ (ls.map lowerChar).map upperChar, isAlphaAscii c = true := by
        intro c hc
        obtain ⟨x, hx, hfx⟩ := List.mem_map.mp hc
        rw [← hfx, isAlphaAscii_upperChar]
        exact hlsl x hx
      have hm3 : matchDes (ds ++ (ls.map lowerChar).map upperChar) =
          some (ds, (ls.map lowerChar).map upperChar) :=
        matchDes_canon hne hdig hlsu hz
      have hne3 : (ds ++ (ls.map lowerChar).map upperChar).isEmpty = false := by
        cases ds
        · exact absurd rfl hne
        · rfl
      rw [hn, hdisp, normalizeDes_eq_some hne3 hm3, hint, map_lower_upper_lower]

/-- s starts with the pattern p. -/
def startsWithStr : Str → Str → Bool
  | _, [] => true
  | [], _ :: _ => false
  | c :: cs, p :: ps => c == p && startsWithStr cs ps

/-- Python's str.split(sep) for a nonempty separator: split on every
leftmost non-overlapping occurrence.  Fuel-driven so that the scan can jump
over a matched separator and still be structurally recursive; the entry
point supplies fuel covering the whole string. -/
def splitSubGo (pat : Str) : Nat → Str → Str → List Str
  | _, [], acc => [acc.reverse]
  | 0, s, acc => [acc.reverse ++ s]
  | fuel + 1, c :: cs, acc =>
    if startsWithStr (c :: cs) pat && !pat.isEmpty then
      acc.reverse :: splitSubGo pat fuel (cs.drop (pat.length - 1)) []
    else splitSubGo pat fuel cs (c :: acc)

/-- Python's value.split(sep). -/
def splitSub (pat s : Str) : List Str := splitSubGo pat s.length s []

/-- Python's str.replace(old, new) for a nonempty pattern: replace every
leftmost non-overlapping occurrence. -/
def replaceStrGo (old rep : Str) : Nat → Str → Str
  | _, [] => []
  | 0, s => s
  | fuel + 1, c :: cs =>
    if startsWithStr (c :: cs) old && !old.isEmpty then
      rep ++ replaceStrGo old rep fuel (cs.drop (old.length - 1))
    else c :: replaceStrGo old rep fuel cs

/-- Python's s.replace(old, rep). -/
def replaceStr (s old rep : Str) : Str := replaceStrGo old rep s.length s

/-- Python truthiness of an optional string column: NULL and "" are falsy. -/
def optTruthy : Option Str → Bool
  | some s => !s.isEmpty
  | none => false

/-- Python's `a or b` for an optional string a and a default b. -/
def pyOrOpt (a : Option Str) (b : Str) : Str :=
  match a with
  | some s => if s.isEmpty then b else s
  | none => b

/-- split_range from update_chapter_summaries: split on the literal " to ";
exactly two parts yield the stripped pair, anything else repeats the value. -/
def splitRange (value : Str) : Str × Str :=
  match splitSub " to ".toList value with
  | [a, b] => (pyStrip a, pyStrip b)
  | _ => (value, value)

/-- One accumulated chapter summary row (the dict built by
update_chapter_summaries; chapter_id is the association key). -/
structure ChapSummary where
  titleId : Option Str
  titleIdPadded : Option Str
  titleIdDisplay : Option Str
  chapterIdPadded : Option Str
  chapterIdDisplay : Option Str
  sectionCount : Nat
  sectionStart : Option Str
  sectionEnd : Option Str
deriving DecidableEq

/-- One row of the rollup query: chapter_id, title_id, section_number,
section_range_start, section_range_end. -/
structure SumRow where
  chapterId : Str
  titleId : Option Str
  sectionNumber : Option Str
  rangeStart : Option Str
  rangeEnd : Option Str
deriving DecidableEq

def assocFind (k : Str) : List (Str × ChapSummary) → Option ChapSummary
  | [] => none
  | (k2, v) :: rest => if k2 == k then some v else assocFind k rest

def assocSet (k : Str) (v : ChapSummary) :
    List (Str × ChapSummary) → List (Str × ChapSummary)
  | [] => [(k, v)]
  | (k2, v2) :: rest => if k2 == k then (k, v) :: rest else (k2, v2) :: assocSet k v rest

/-- The body of update_chapter_summaries' row loop. -/
def summaryStep (som : List (Str × ChapSummary)) (row : SumRow) :
    List (Str × ChapSummary) :=
  let startSource := pyOrOpt row.rangeStart (pyOrOpt row.sectionNumber [])
  let endSource := pyOrOpt row.rangeEnd (pyOrOpt row.sectionNumber [])
  let start := (splitRange startSource).1
  let endv := (splitRange endSource).2
  let s0 :=
    match assocFind row.chapterId som with
    | some s => s
    | none =>
      { titleId := row.titleId, titleIdPadded := none, titleIdDisplay := none,
        chapterIdPadded := none, chapterIdDisplay := none, sectionCount := 0,
        sectionStart := none, sectionEnd := none }
  let s1 :=
    if optTruthy row.titleId && !optTruthy s0.titleId then
      { s0 with titleId := row.titleId }
    else s0
  let s2 :=
    if optTruthy row.titleId && !optTruthy s1.titleIdPadded then
      { s1 with
        titleIdPadded := some (formatDesignatorPadded 4 (pyOrOpt row.titleId []))
        titleIdDisplay := some (formatDesignatorDisplay (pyOrOpt row.titleId [])) }
    else s1
  let chapterRaw := replaceStr row.chapterId "chap_".toList []
  let s3 :=
    if !optTruthy s2.chapterIdPadded then
      { s2 with
        chapterIdPadded := some (formatDesignatorPadded 4 chapterRaw)
        chapterIdDisplay := some (formatDesignatorDisplay chapterRaw) }
    else s2
  let s4 := { s3 with sectionCount := s3.sectionCount + 1 }
  let s5 :=
    if !start.isEmpty then
      (if !optTruthy s4.sectionStart ||
          keyLt (naturalKey start) (naturalKey (pyOrOpt s4.sectionStart [])) then
        { s4 with sectionStart := some start }
      else s4)
    else s4
  let s6 :=
    if !endv.isEmpty then
      (if !optTruthy s5.sectionEnd ||
          keyLt (naturalKey (pyOrOpt s5.sectionEnd [])) (naturalKey endv) then
        { s5 with sectionEnd := some endv }
      else s5)
    else s5
  assocSet row.chapterId s6 som

/-- update_chapter_summaries from src/parse_cga_to_sqlite.py: rows with a
non-null, non-empty chapter_id are folded into per-chapter summaries in
row order (Python dicts preserve insertion order). -/
def updateChapterSummaries (rows : List SumRow) : List (Str × ChapSummary) :=
  (rows.filter fun r => !r.chapterId.isEmpty).foldl summaryStep []

/-- C3, code bug.  The spec claims a chapter whose sections carry the
range candidates ["12-100","12-100 to 12-104","12-99"] reports
section_start="12-99" and section_end="12-104".  Because _natural_key never
splits digit runs (its pattern is the literal backslash-d, see natSplit),
hyphenated designators compare as plain lowercase strings, so "12-99"
sorts above "12-100" and "12-104"; the code keeps
section_start="12-100" and section_end="12-99". -/
theorem chapter_rollup_c3_bug :
    ((updateChapterSummaries
        [{ chapterId := "chap_1".toList, titleId := none,
           sectionNumber := some "12-100".toList, rangeStart := none, rangeEnd := none },
         { chapterId := "chap_1".toList, titleId := none,
           sectionNumber := some "12-100 to 12-104".toList, rangeStart := none,
           rangeEnd := none },
         { chapterId := "chap_1".toList, titleId := none,
           sectionNumber := some "12-99".toList, rangeStart := none, rangeEnd := none }]).map
      fun p => (p.1, p.2.sectionStart, p.2.sectionEnd)) =
      [("chap_1".toList, some "12-100".toList, some "12-99".toList)] := by
  decide

/-- The cleaned raw identifier used by update_prev_next:
section_id.replace("secs_", "").replace("sec_", ""). -/
def cleanRawId (sectionId : Str) : Str :=
  replaceStr (replaceStr sectionId "secs_".toList []) "sec_".toList []

/-- Zero-pad every maximal digit run to the given width, scanning a string
whose case has already been folded; this is re.sub(r"\d+", zfill, value)
written as a structural scan. -/
def padRunsGo (w : Nat) : Str → Str → Str
  | [], run => if run.isEmpty then [] else zfill w run.reverse
  | c :: cs, run =>
    if isDig c then padRunsGo w cs (c :: run)
    else (if run.isEmpty then [] else zfill w run.reverse) ++ (c :: padRunsGo w cs [])

/-- _padded_key(value, width=6) from src/parse_cga_to_sqlite.py: empty
input gives "", otherwise lowercase the value and zero-pad its digit runs
to width 6. -/
def paddedKey (value : Str) : Str :=
  if value.isEmpty then [] else padRunsGo 6 (value.map lowerChar) []

/-- The designator update_prev_next prefers for a section:
range_start or section_number or the cleaned raw identifier
(Python `or`, so empty strings fall through). -/
def updSortValue (sectionId : Str) (number rangeStart : Option Str) : Str :=
  pyOrOpt rangeStart (pyOrOpt number (cleanRawId sectionId))

/-- The sort key update_prev_next actually computes:
_padded_key(sort_value if "-" in sort_value else raw_id). -/
def updSortKey (sectionId : Str) (number rangeStart : Option Str) : Str :=
  if (updSortValue sectionId number rangeStart).contains '-' then
    paddedKey (updSortValue sectionId number rangeStart)
  else paddedKey (cleanRawId sectionId)

/-- Modelled from the spec's words for C4: the natural sort key "splits
the string into alternating digit/non-digit runs, zero-pads digit runs for
comparison, and lowercases non-digit runs". -/
def specPadGo (w : Nat) : Str → Str → Str
  | [], run => if run.isEmpty then [] else zfill w run.reverse
  | c :: cs, run =>
    if isDig c then specPadGo w cs (c :: run)
    else (if run.isEmpty then [] else zfill w run.reverse) ++
      (lowerChar c :: specPadGo w cs [])

/-- The spec-side padded key: digit runs zero-padded to width 6, non-digit
runs lowercased. -/
def specPaddedKey (value : Str) : Str :=
  if value.isEmpty then [] else specPadGo 6 value []

theorem lowerChar_of_dig {c : Char} (h : isDig c = true) : lowerChar c = c := by
  unfold isDig at h
  simp only [Bool.and_eq_true, decide_eq_true_eq] at h
  unfold lowerChar
  rw [dif_neg (by omega)]

theorem padRunsGo_map_lower (w : Nat) (s : Str) : ∀ run,
    padRunsGo w (s.map lowerChar) run = specPadGo w s run := by
  induction s with
  | nil => intro run; rfl
  | cons c cs ih =>
    intro run
    simp only [List.map_cons]
    by_cases hc : isDig c = true
    · rw [lowerChar_of_dig hc]
      unfold padRunsGo specPadGo
      rw [hc, if_pos rfl, if_pos rfl]
      exact ih (c :: run)
    · have hc' : isDig c = false := by
        revert hc
        cases isDig c <;> simp
      have hlc : isDig (lowerChar c) = false := by rw [isDig_lowerChar, hc']
      unfold padRunsGo specPadGo
      rw [hlc, hc']
      simp only [Bool.false_eq_true, if_false]
      rw [ih []]

/-- Equality of the code's padded key and the spec's run description. -/
theorem paddedKey_eq_spec (value : Str) : paddedKey value = specPaddedKey value := by
  unfold paddedKey specPaddedKey
  by_cases h : value.isEmpty
  · rw [if_pos h, if_pos h]
  · rw [if_neg h, if_neg h, padRunsGo_map_lower]

/-- C4, counterexample.  The claim says the sort key is derived from
range_start when present.  For section_id "sec_12-5" with
range_start "5" (no hyphen), update_prev_next keys on the cleaned raw id
"12-5" instead of "5". -/
theorem upd_sort_key_c4_counterexample :
    updSortKey "sec_12-5".toList (some "5".toList) (some "5".toList) ≠
        paddedKey "5".toList ∧
      updSortKey "sec_12-5".toList (some "5".toList) (some "5".toList) =
        paddedKey "12-5".toList := by
  decide

/-- C4 as amended: the preferred designator (range_start, else
section_number, else cleaned raw id) is used for the key only when it
contains a hyphen; otherwise the key is computed from the cleaned raw
identifier.  In both cases the key zero-pads digit runs to width 6 and
lowercases non-digit runs (specPaddedKey). -/
theorem upd_sort_key_c4_amended (sectionId : Str) (number rangeStart : Option Str) :
    updSortKey sectionId number rangeStart =
      (if (updSortValue sectionId number rangeStart).contains '-' then
        specPaddedKey (updSortValue sectionId number rangeStart)
      else specPaddedKey (cleanRawId sectionId)) := by
  unfold updSortKey
  rw [paddedKey_eq_spec, paddedKey_eq_spec]

/-- Python's str.splitlines as a character scan; acc holds the reversed
current line and the flag records that the previous character was a
carriage return whose line was already emitted (so that "\r\n" counts as a
single break).  A trailing line without terminator is kept and the empty
string yields no lines. -/
def pySplitlinesGo : Str → Str → Bool → List Str
  | [], acc, _ => if acc.isEmpty then [] else [acc.reverse]
  | c :: cs, acc, afterCR =>
    if afterCR && c == '\n' then pySplitlinesGo cs acc false
    else if c == '\r' then acc.reverse :: pySplitlinesGo cs [] true
    else if lineBreak c then acc.reverse :: pySplitlinesGo cs [] false
    else pySplitlinesGo cs (c :: acc) false

/-- Python's s.splitlines(). -/
def pySplitlines (s : Str) : List Str := pySplitlinesGo s [] false

/-- Python's str.split() with no separator: maximal whitespace runs
separate words and no empty words are produced. -/
def pySplitGo : Str → Str → List Str
  | [], acc => if acc.isEmpty then [] else [acc.reverse]
  | c :: cs, acc =>
    if pySpace c then (if acc.isEmpty then [] else [acc.reverse]) ++ pySplitGo cs []
    else pySplitGo cs (c :: acc)

/-- Python's s.split(). -/
def pySplit (s : Str) : List Str := pySplitGo s []

/-- Python's sep.join(parts). -/
def joinWith (sep : Str) : List Str → Str
  | [] => []
  | [l] => l
  | l :: l2 :: rest => l ++ sep ++ joinWith sep (l2 :: rest)

/-- One line of get_text's cleanup: " ".join(line.split()). -/
def cleanLine (l : Str) : Str := joinWith [' '] (pySplit l)

/-- The blank-collapsing loop of get_text; the flag records whether the
previously kept line was blank. -/
def collapseGo : List Str → Bool → List Str
  | [], _ => []
  | l :: ls, blank =>
    if l.isEmpty then (if blank then collapseGo ls true else [] :: collapseGo ls true)
    else l :: collapseGo ls false

/-- The blank-line collapse pass of get_text. -/
def collapseBlanks (ls : List Str) : List Str := collapseGo ls false

/-- SectionTextExtractor.get_text's normalization of one accumulated raw
block: split into lines, collapse in-line whitespace runs to single
spaces, collapse consecutive blank lines to at most one, join with
newlines and strip. -/
def getText (s : Str) : Str :=
  pyStrip (joinWith ['\n'] (collapseBlanks ((pySplitlines s).map cleanLine)))

theorem bool_not_true {b : Bool} (h : ¬ b = true) : b = false := by
  cases b
  · rfl
  · exact absurd rfl h

theorem pySpace_of_lineBreak {c : Char} (h : lineBreak c = true) : pySpace c = true := by
  unfold lineBreak at h
  simp only [Bool.or_eq_true, beq_iff_eq] at h
  rcases h with ((((((((h | h) | h) | h) | h) | h) | h) | h) | h) | h <;> subst h <;> decide

theorem not_cr_of_break_false {c : Char} (h : lineBreak c = false) : (c == '\r') = false := by
  by_cases hc : c = '\r'
  · subst hc
    exact absurd h (by decide)
  · simp [hc]

theorem reverse_ne_nil {α : Type} {l : List α} (h : l ≠ []) : l.reverse ≠ [] := by
  cases l
  · exact absurd rfl h
  · simp

/-- Every word produced by pySplitGo is nonempty and whitespace-free
(provided the accumulated partial word is whitespace-free). -/
theorem pySplitGo_good : ∀ (s acc : Str), (∀ c ∈ acc, pySpace c = false) →
    ∀ w ∈ pySplitGo s acc, w ≠ [] ∧ ∀ c ∈ w, pySpace c = false := by
  intro s
  induction s with
  | nil =>
    intro acc hacc w hw
    unfold pySplitGo at hw
    by_cases ha : acc.isEmpty = true
    · rw [if_pos ha] at hw
      cases hw
    · rw [if_neg ha] at hw
      rw [List.mem_singleton] at hw
      subst hw
      refine ⟨reverse_ne_nil (ne_nil_of_isEmpty_false (bool_not_true ha)), ?_⟩
      intro c hc
      exact hacc c (List.mem_reverse.mp hc)
  | cons c cs ih =>
    intro acc hacc w hw
    unfold pySplitGo at hw
    by_cases hc : pySpace c = true
    · rw [if_pos hc, List.mem_append] at hw
      rcases hw with hw | hw
      · by_cases ha : acc.isEmpty = true
        · rw [if_pos ha] at hw
          cases hw
        · rw [if_neg ha, List.mem_singleton] at hw
          subst hw
          refine ⟨reverse_ne_nil (ne_nil_of_isEmpty_false (bool_not_true ha)), ?_⟩
          intro x hx
          exact hacc x (List.mem_reverse.mp hx)
      · exact ih [] (fun x hx => absurd hx (List.not_mem_nil x)) w hw
    · rw [if_neg hc] at hw
      refine ih (c :: acc) ?_ w hw
      intro x hx
      rcases List.mem_cons.mp hx with h | h
      · subst h
        exact bool_not_true hc
      · exact hacc x h

/-- Scanning a whitespace-free word just accumulates its characters. -/
theorem pySplitGo_append {w : Str} (hw : ∀ c ∈ w, pySpace c = false) :
    ∀ (rest acc : Str), pySplitGo (w ++ rest) acc = pySplitGo rest (w.reverse ++ acc) := by
  induction w with
  | nil =>
    intro rest acc
    simp
  | cons c cs ih =>
    intro rest acc
    have hc : pySpace c = false := hw c (List.mem_cons_self c cs)
    rw [List.cons_append]
    have step : pySplitGo (c :: (cs ++ rest)) acc = pySplitGo (cs ++ rest) (c :: acc) := by
      simp only [pySplitGo]
      rw [if_neg (by rw [hc]; exact Bool.false_ne_true)]
    rw [step, ih (fun x hx => hw x (List.mem_cons_of_mem c hx)) rest (c :: acc)]
    congr 1
    simp

/-- Splitting a single-space join of good words returns exactly the
words: " ".join and str.split are inverse on canonical word lists. -/
theorem pySplit_joinWith : ∀ (ws : List Str),
    (∀ w ∈ ws, w ≠ [] ∧ ∀ c ∈ w, pySpace c = false) →
    pySplit (joinWith [' '] ws) = ws := by
  intro ws
  induction ws with
  | nil => intro _; rfl
  | cons w ws ih =>
    intro h
    obtain ⟨hwne, hwgood⟩ := h w (List.mem_cons_self w ws)
    cases ws with
    | nil =>
      show pySplitGo (joinWith [' '] [w]) [] = [w]
      have hj : joinWith [' '] [w] = w ++ [] := by
        rw [List.append_nil]
        rfl
      rw [hj, pySplitGo_append hwgood [] []]
      unfold pySplitGo
      rw [List.append_nil, if_neg (by rw [isEmpty_false_of_ne_nil (reverse_ne_nil hwne)]; exact Bool.false_ne_true)]
      rw [List.reverse_reverse]
    | cons w2 ws2 =>
      show pySplitGo (joinWith [' '] (w :: w2 :: ws2)) [] = w :: w2 :: ws2
      have hj : joinWith [' '] (w :: w2 :: ws2) = w ++ (' ' :: joinWith [' '] (w2 :: ws2)) := by
        show w ++ [' '] ++ joinWith [' '] (w2 :: ws2) = _
        rw [List.append_assoc]
        rfl
      rw [hj, pySplitGo_append hwgood (' ' :: joinWith [' '] (w2 :: ws2)) []]
      simp only [pySplitGo]
      rw [if_pos (by decide : pySpace ' ' = true)]
      rw [List.append_nil, if_neg (by rw [isEmpty_false_of_ne_nil (reverse_ne_nil hwne)]; exact Bool.false_ne_true)]
      rw [List.reverse_reverse]
      show [w] ++ pySplit (joinWith [' '] (w2 :: ws2)) = w :: w2 :: ws2
      rw [ih (fun x hx => h x (List.mem_cons_of_mem w hx))]
      rfl

/-- Cleaning a line twice is the same as cleaning it once. -/
theorem cleanLine_idem (l : Str) : cleanLine (cleanLine l) = cleanLine l := by
  show joinWith [' '] (pySplit (joinWith [' '] (pySplit l))) = _
  rw [pySplit_joinWith (pySplit l)
    (pySplitGo_good l [] (fun x hx => absurd hx (List.not_mem_nil x)))]
  rfl

/-- A line is in normal form when the in-line cleanup fixes it. -/
def lineNormal (l : Str) : Prop := cleanLine l = l

theorem lineNormal_clean (l : Str) : lineNormal (cleanLine l) := cleanLine_idem l

theorem lineNormal_nil : lineNormal ([] : Str) := rfl

theorem joinWith_mem {sep : Str} : ∀ {ws : List Str} {c : Char},
    c ∈ joinWith sep ws → c ∈ sep ∨ ∃ w ∈ ws, c ∈ w := by
  intro ws
  induction ws with
  | nil =>
    intro c hc
    cases hc
  | cons w ws ih =>
    cases ws with
    | nil =>
      intro c hc
      exact Or.inr ⟨w, List.mem_cons_self w [], hc⟩
    | cons w2 ws2 =>
      intro c hc
      have hj : joinWith sep (w :: w2 :: ws2) = w ++ (sep ++ joinWith sep (w2 :: ws2)) := by
        simp only [joinWith]
        rw [List.append_assoc]
      rw [hj] at hc
      rcases List.mem_append.mp hc with h1 | h1
      · exact Or.inr ⟨w, List.mem_cons_self w (w2 :: ws2), h1⟩
      · rcases List.mem_append.mp h1 with h2 | h2
        · exact Or.inl h2
        · rcases ih h2 with h3 | ⟨w', hw', hcw'⟩
          · exact Or.inl h3
          · exact Or.inr ⟨w', List.mem_cons_of_mem w hw', hcw'⟩

theorem line_chars {l : Str} (h : lineNormal l) {c : Char} (hc : c ∈ l) :
    c = ' ' ∨ pySpace c = false := by
  rw [← h] at hc
  rcases joinWith_mem hc with hs | ⟨w, hw, hcw⟩
  · exact Or.inl (List.mem_singleton.mp hs)
  · exact Or.inr
      ((pySplitGo_good l [] (fun x hx => absurd hx (List.not_mem_nil x)) w hw).2 c hcw)

theorem line_no_break {l : Str} (h : lineNormal l) : ∀ c ∈ l, lineBreak c = false := by
  intro c hc
  rcases line_chars h hc with h1 | h1
  · subst h1
    decide
  · by_cases hb : lineBreak c = true
    · rw [pySpace_of_lineBreak hb] at h1
      cases h1
    · exact bool_not_true hb

theorem joinWith_head_nonspace : ∀ (ws : List Str),
    (∀ w ∈ ws, w ≠ [] ∧ ∀ c ∈ w, pySpace c = false) →
    ∀ c t, joinWith [' '] ws = c :: t → pySpace c = false := by
  intro ws
  induction ws with
  | nil =>
    intro _ c t he
    cases he
  | cons w ws ih =>
    intro h c t he
    obtain ⟨hwne, hwgood⟩ := h w (List.mem_cons_self w ws)
    cases ws with
    | nil =>
      have hw : w = c :: t := he
      exact hwgood c (by rw [hw]; exact List.mem_cons_self c t)
    | cons w2 ws2 =>
      have hj : joinWith [' '] (w :: w2 :: ws2) = w ++ ([' '] ++ joinWith [' '] (w2 :: ws2)) := by
        simp only [joinWith]
        rw [List.append_assoc]
      rw [hj] at he
      cases w with
      | nil => exact absurd rfl hwne
      | cons cw wt =>
        rw [List.cons_append] at he
        cases he
        exact hwgood _ (List.mem_cons_self _ wt)

theorem line_head_nonspace {l : Str} (h : lineNormal l) :
    ∀ c t, l = c :: t → pySpace c = false := by
  intro c t hl
  have h' : joinWith [' '] (pySplit l) = c :: t := by
    rw [show joinWith [' '] (pySplit l) = l from h]
    exact hl
  exact joinWith_head_nonspace (pySplit l)
    (pySplitGo_good l [] (fun x hx => absurd hx (List.not_mem_nil x))) c t h'

theorem joinWith_append_single (sep : Str) : ∀ (a : Str) (A : List Str) (x : Str),
    joinWith sep ((a :: A) ++ [x]) = joinWith sep (a :: A) ++ sep ++ x := by
  intro a A
  induction A generalizing a with
  | nil =>
    intro x
    rfl
  | cons a2 A' ih =>
    intro x
    show joinWith sep (a :: a2 :: (A' ++ [x])) = joinWith sep (a :: a2 :: A') ++ sep ++ x
    have e1 : joinWith sep (a :: a2 :: (A' ++ [x])) =
        a ++ sep ++ joinWith sep (a2 :: (A' ++ [x])) := rfl
    rw [e1, show (a2 :: (A' ++ [x])) = (a2 :: A') ++ [x] from rfl, ih a2 x]
    show a ++ sep ++ (joinWith sep (a2 :: A') ++ sep ++ x) =
      (a ++ sep ++ joinWith sep (a2 :: A')) ++ sep ++ x
    simp [List.append_assoc]

theorem joinWith_reverse (sep : Str) : ∀ (ws : List Str),
    (joinWith sep ws).reverse = joinWith sep.reverse ((ws.map List.reverse).reverse) := by
  intro ws
  induction ws with
  | nil => rfl
  | cons w ws ih =>
    cases ws with
    | nil => rfl
    | cons w2 ws2 =>
      show (w ++ sep ++ joinWith sep (w2 :: ws2)).reverse = _
      rw [List.reverse_append, List.reverse_append, ih]
      have hR : (List.map List.reverse (w :: w2 :: ws2)).reverse =
          (List.map List.reverse (w2 :: ws2)).reverse ++ [w.reverse] := by
        rw [List.map_cons, List.reverse_cons]
      rw [hR]
      rcases hM : (List.map List.reverse (w2 :: ws2)).reverse with _ | ⟨m, M⟩
      · exact absurd hM (by simp)
      · rw [joinWith_append_single sep.reverse m M w.reverse]
        simp [List.append_assoc]

theorem pySplitlinesGo_append {l : Str} (hl : ∀ c ∈ l, lineBreak c = false) :
    ∀ (rest acc : Str),
      pySplitlinesGo (l ++ rest) acc false = pySplitlinesGo rest (l.reverse ++ acc) false := by
  induction l with
  | nil =>
    intro rest acc
    simp
  | cons c cs ih =>
    intro rest acc
    have hc : lineBreak c = false := hl c (List.mem_cons_self c cs)
    have hcr : (c == '\r') = false := not_cr_of_break_false hc
    rw [List.cons_append]
    have step : pySplitlinesGo (c :: (cs ++ rest)) acc false =
        pySplitlinesGo (cs ++ rest) (c :: acc) false := by
      simp only [pySplitlinesGo]
      rw [Bool.false_and, if_neg Bool.false_ne_true]
      rw [if_neg (by rw [hcr]; exact Bool.false_ne_true)]
      rw [if_neg (by rw [hc]; exact Bool.false_ne_true)]
    rw [step, ih (fun x hx => hl x (List.mem_cons_of_mem c hx)) rest (c :: acc)]
    congr 1
    simp

theorem pySplitlines_joinWith : ∀ (L : List Str),
    (∀ l ∈ L, ∀ c ∈ l, lineBreak c = false) →
    (∀ m ms, L.reverse = m :: ms → m ≠ []) →
    pySplitlines (joinWith ['\n'] L) = L := by
  intro L
  induction L with
  | nil =>
    intro _ _
    rfl
  | cons l L' ih =>
    intro hbr hlast
    have hl : ∀ c ∈ l, lineBreak c = false := hbr l (List.mem_cons_self l L')
    cases L' with
    | nil =>
      have hlne : l ≠ [] := hlast l [] (by simp)
      show pySplitlinesGo (joinWith ['\n'] [l]) [] false = [l]
      have hj : joinWith ['\n'] [l] = l ++ [] := by
        rw [List.append_nil]
        rfl
      rw [hj, pySplitlinesGo_append hl [] []]
      simp only [pySplitlinesGo]
      rw [List.append_nil]
      rw [if_neg (by rw [isEmpty_false_of_ne_nil (reverse_ne_nil hlne)]; exact Bool.false_ne_true)]
      rw [List.reverse_reverse]
    | cons l2 L'' =>
      show pySplitlinesGo (joinWith ['\n'] (l :: l2 :: L'')) [] false = l :: l2 :: L''
      have hj : joinWith ['\n'] (l :: l2 :: L'') =
          l ++ ('\n' :: joinWith ['\n'] (l2 :: L'')) := by
        show l ++ ['\n'] ++ joinWith ['\n'] (l2 :: L'') = _
        rw [List.append_assoc]
        rfl
      rw [hj, pySplitlinesGo_append hl ('\n' :: joinWith ['\n'] (l2 :: L'')) []]
      simp only [pySplitlinesGo]
      rw [Bool.false_and, if_neg Bool.false_ne_true]
      rw [if_neg (by decide : ¬ ((('\n' : Char) == '\r') = true))]
      rw [if_pos (by decide : lineBreak '\n' = true)]
      rw [List.append_nil, List.reverse_reverse]
      congr 1
      apply ih
      · intro x hx
        exact hbr x (List.mem_cons_of_mem l hx)
      · intro m ms hms
        apply hlast m (ms ++ [l])
        rw [List.reverse_cons, hms]
        simp

/-- No two adjacent blank lines. -/
def noDB : List Str → Bool
  | [] => true
  | [_] => true
  | a :: b :: t => !(a.isEmpty && b.isEmpty) && noDB (b :: t)

theorem noDB_tail {a : Str} {t : List Str} (h : noDB (a :: t) = true) : noDB t = true := by
  cases t with
  | nil => rfl
  | cons b t' =>
    have h' : (!(a.isEmpty && b.isEmpty) && noDB (b :: t')) = true := h
    exact ((Bool.and_eq_true _ _).mp h').2

/-- Collapsing fixes a list with no adjacent blanks (and, entered with the
blank flag set, a list whose head is nonempty). -/
theorem collapse_fix : ∀ (L : List Str), noDB L = true →
    collapseGo L false = L ∧ ((∀ m ms, L = m :: ms → m ≠ []) → collapseGo L true = L) := by
  intro L
  induction L with
  | nil =>
    intro _
    exact ⟨rfl, fun _ => rfl⟩
  | cons l ls ih =>
    intro h
    obtain ⟨ih1, ih2⟩ := ih (noDB_tail h)
    constructor
    · by_cases he : l.isEmpty = true
      · have hl : l = [] := by
          cases l
          · rfl
          · exact absurd he (by simp)
        subst hl
        have e : collapseGo (([] : Str) :: ls) false = [] :: collapseGo ls true := by
          simp only [collapseGo]
          rw [if_pos (show List.isEmpty ([] : Str) = true from rfl), if_neg Bool.false_ne_true]
        rw [e]
        have hhead : ∀ m ms, ls = m :: ms → m ≠ [] := by
          intro m ms hms hmnil
          subst hms
          subst hmnil
          simp [noDB] at h
        rw [ih2 hhead]
      · have e : collapseGo (l :: ls) false = l :: collapseGo ls false := by
          simp only [collapseGo]
          rw [if_neg he]
        rw [e, ih1]
    · intro hhead
      have hisF : l.isEmpty = false := isEmpty_false_of_ne_nil (hhead l ls rfl)
      have e : collapseGo (l :: ls) true = l :: collapseGo ls false := by
        simp only [collapseGo]
        rw [if_neg (by rw [hisF]; exact Bool.false_ne_true)]
      rw [e, ih1]

/-- Collapsing with the blank flag set yields a list whose head, if any,
is nonempty. -/
theorem collapse_true_head : ∀ L : List Str,
    collapseGo L true = [] ∨ ∃ m ms, collapseGo L true = m :: ms ∧ m ≠ [] := by
  intro L
  induction L with
  | nil => exact Or.inl rfl
  | cons l ls ih =>
    by_cases he : l.isEmpty = true
    · have e : collapseGo (l :: ls) true = collapseGo ls true := by
        simp only [collapseGo]
        rw [if_pos he, if_pos trivial]
      rw [e]
      exact ih
    · have e : collapseGo (l :: ls) true = l :: collapseGo ls false := by
        simp only [collapseGo]
        rw [if_neg he]
      rw [e]
      exact Or.inr ⟨l, collapseGo ls false, rfl, ne_nil_of_isEmpty_false (bool_not_true he)⟩

/-- The collapse pass leaves no adjacent blank lines. -/
theorem collapse_noDB : ∀ (L : List Str) (b : Bool), noDB (collapseGo L b) = true := by
  intro L
  induction L with
  | nil =>
    intro _
    rfl
  | cons l ls ih =>
    intro b
    by_cases he : l.isEmpty = true
    · cases b
      · have e : collapseGo (l :: ls) false = [] :: collapseGo ls true := by
          simp only [collapseGo]
          rw [if_pos he, if_neg Bool.false_ne_true]
        rw [e]
        rcases collapse_true_head ls with h1 | ⟨m, ms, hm, hmne⟩
        · rw [h1]
          rfl
        · rw [hm]
          have e2 : noDB (([] : Str) :: m :: ms) =
              (!(List.isEmpty ([] : Str) && m.isEmpty) && noDB (m :: ms)) := rfl
          rw [e2, isEmpty_false_of_ne_nil hmne, ← hm]
          simp [ih true]
      · have e : collapseGo (l :: ls) true = collapseGo ls true := by
          simp only [collapseGo]
          rw [if_pos he, if_pos trivial]
        rw [e]
        exact ih true
    · have e : collapseGo (l :: ls) b = l :: collapseGo ls false := by
        simp only [collapseGo]
        rw [if_neg he]
      rw [e]
      rcases hcf : collapseGo ls false with _ | ⟨m, ms⟩
      · rfl
      · have e2 : noDB (l :: m :: ms) = (!(l.isEmpty && m.isEmpty) && noDB (m :: ms)) := rfl
        rw [e2, bool_not_true he, Bool.false_and, Bool.not_false, Bool.true_and, ← hcf]
        exact ih false

/-- Lines surviving the collapse come from the input or are blank. -/
theorem collapse_mem : ∀ (L : List Str) (b : Bool) (l : Str),
    l ∈ collapseGo L b → l ∈ L ∨ l = [] := by
  intro L
  induction L with
  | nil =>
    intro b l hmem
    cases hmem
  | cons x ls ih =>
    intro b l hmem
    by_cases he : x.isEmpty = true
    · cases b
      · have e : collapseGo (x :: ls) false = [] :: collapseGo ls true := by
          simp only [collapseGo]
          rw [if_pos he, if_neg Bool.false_ne_true]
        rw [e] at hmem
        rcases List.mem_cons.mp hmem with h1 | h1
        · exact Or.inr h1
        · rcases ih true l h1 with h2 | h2
          · exact Or.inl (List.mem_cons_of_mem x h2)
          · exact Or.inr h2
      · have e : collapseGo (x :: ls) true = collapseGo ls true := by
          simp only [collapseGo]
          rw [if_pos he, if_pos trivial]
        rw [e] at hmem
        rcases ih true l hmem with h2 | h2
        · exact Or.inl (List.mem_cons_of_mem x h2)
        · exact Or.inr h2
    · have e : collapseGo (x :: ls) b = x :: collapseGo ls false := by
        simp only [collapseGo]
        rw [if_neg he]
      rw [e] at hmem
      rcases List.mem_cons.mp hmem with h1 | h1
      · subst h1
        exact Or.inl (List.mem_cons_self l ls)
      · rcases ih false l h1 with h2 | h2
        · exact Or.inl (List.mem_cons_of_mem x h2)
        · exact Or.inr h2

theorem isEmpty_reverse_eq {α : Type} (l : List α) : l.reverse.isEmpty = l.isEmpty := by
  cases l with
  | nil => rfl
  | cons a t =>
    rw [List.reverse_cons]
    rcases he : t.reverse ++ [a] with _ | ⟨x, xs⟩
    · exact absurd he (by simp)
    · rfl

/-- Dropping leading whitespace from a newline join drops the leading
blank lines, when every nonempty line starts with a non-space. -/
theorem dropWhile_joinWith : ∀ (L : List Str),
    (∀ l ∈ L, ∀ c t, l = c :: t → pySpace c = false) →
    (joinWith ['\n'] L).dropWhile pySpace = joinWith ['\n'] (L.dropWhile List.isEmpty) := by
  intro L
  induction L with
  | nil =>
    intro _
    rfl
  | cons l L' ih =>
    intro h
    rcases hl : l with _ | ⟨c, t⟩
    · subst hl
      cases L' with
      | nil => rfl
      | cons l2 L'' =>
        have hj : joinWith ['\n'] (([] : Str) :: l2 :: L'') =
            '\n' :: joinWith ['\n'] (l2 :: L'') := by
          simp only [joinWith]
          rw [List.nil_append]
          rfl
        rw [hj, List.dropWhile_cons, if_pos (by decide : pySpace '\n' = true)]
        have e2 : ((([] : Str)) :: l2 :: L'').dropWhile List.isEmpty =
            (l2 :: L'').dropWhile List.isEmpty := by
          rw [List.dropWhile_cons, if_pos (show List.isEmpty ([] : Str) = true from rfl)]
        rw [e2]
        exact ih fun x hx => h x (List.mem_cons_of_mem _ hx)
    · subst hl
      have hc : pySpace c = false := h (c :: t) (List.mem_cons_self _ L') c t rfl
      have eR : ((c :: t) :: L').dropWhile List.isEmpty = (c :: t) :: L' := by
        rw [List.dropWhile_cons, if_neg (by simp)]
      rw [eR]
      cases L' with
      | nil =>
        show ((c :: t) : Str).dropWhile pySpace = c :: t
        rw [List.dropWhile_cons, if_neg (by rw [hc]; exact Bool.false_ne_true)]
      | cons l2 L'' =>
        have hj : joinWith ['\n'] ((c :: t) :: l2 :: L'') =
            c :: (t ++ (['\n'] ++ joinWith ['\n'] (l2 :: L''))) := by
          simp only [joinWith]
          rw [List.cons_append]
          simp [List.append_assoc]
        rw [hj, List.dropWhile_cons, if_neg (by rw [hc]; exact Bool.false_ne_true), ← hj]

/-- A normal line, read in reverse, also starts with a non-space: its last
character is not whitespace. -/
theorem line_rev_head_nonspace {l : Str} (h : lineNormal l) :
    ∀ c t, l.reverse = c :: t → pySpace c = false := by
  intro c t hrev
  have hgood := pySplitGo_good l [] (fun x hx => absurd hx (List.not_mem_nil x))
  have hrevj : l.reverse = joinWith [' '] (((pySplit l).map List.reverse).reverse) := by
    conv_lhs => rw [← (show joinWith [' '] (pySplit l) = l from h)]
    rw [joinWith_reverse [' '] (pySplit l)]
    rfl
  have hgr : ∀ w ∈ ((pySplit l).map List.reverse).reverse,
      w ≠ [] ∧ ∀ c ∈ w, pySpace c = false := by
    intro w hw
    rw [List.mem_reverse] at hw
    obtain ⟨w', hw', hweq⟩ := List.mem_map.mp hw
    obtain ⟨hne, hgoodw⟩ := hgood w' hw'
    constructor
    · rw [← hweq]
      exact reverse_ne_nil hne
    · intro x hx
      rw [← hweq] at hx
      exact hgoodw x (List.mem_reverse.mp hx)
  exact joinWith_head_nonspace _ hgr c t (by rw [← hrevj]; exact hrev)

/-- Trailing blank lines removed. -/
def dropTrailEmpty (L : List Str) : List Str := (L.reverse.dropWhile List.isEmpty).reverse

/-- Leading and trailing blank lines removed. -/
def trimEnds (L : List Str) : List Str := dropTrailEmpty (L.dropWhile List.isEmpty)

/-- Stripping a newline join of normal lines trims exactly the leading and
trailing blank lines. -/
theorem strip_joinWith (L : List Str) (h : ∀ l ∈ L, lineNormal l) :
    pyStrip (joinWith ['\n'] L) = joinWith ['\n'] (trimEnds L) := by
  have hheads : ∀ l ∈ L, ∀ c t, l = c :: t → pySpace c = false :=
    fun l hl => line_head_nonspace (h l hl)
  unfold pyStrip
  rw [dropWhile_joinWith L hheads]
  have hL1mem : ∀ l ∈ L.dropWhile List.isEmpty, lineNormal l := by
    intro l hl
    apply h
    rw [← List.takeWhile_append_dropWhile List.isEmpty L]
    exact List.mem_append_right _ hl
  rw [joinWith_reverse ['\n'] (L.dropWhile List.isEmpty)]
  rw [show (['\n'] : Str).reverse = ['\n'] from rfl]
  have hrevheads : ∀ l ∈ ((L.dropWhile List.isEmpty).map List.reverse).reverse,
      ∀ c t, l = c :: t → pySpace c = false := by
    intro l hl
    rw [List.mem_reverse] at hl
    obtain ⟨l', hl', hleq⟩ := List.mem_map.mp hl
    intro c t hct
    exact line_rev_head_nonspace (hL1mem l' hl') c t (by rw [hleq]; exact hct)
  rw [dropWhile_joinWith _ hrevheads]
  have hdw : (((L.dropWhile List.isEmpty).map List.reverse).reverse).dropWhile List.isEmpty =
      ((dropTrailEmpty (L.dropWhile List.isEmpty)).map List.reverse).reverse := by
    rw [← List.map_reverse List.reverse (L.dropWhile List.isEmpty)]
    rw [List.dropWhile_map]
    have hpred : (List.isEmpty ∘ (List.reverse : Str → Str)) = List.isEmpty :=
      funext fun x => isEmpty_reverse_eq x
    rw [hpred]
    rw [show dropTrailEmpty (L.dropWhile List.isEmpty) =
      (((L.dropWhile List.isEmpty).reverse).dropWhile List.isEmpty).reverse from rfl]
    rw [List.map_reverse]
    rw [List.reverse_reverse]
  rw [hdw]
  have hfin : (joinWith ['\n']
      (((dropTrailEmpty (L.dropWhile List.isEmpty)).map List.reverse).reverse)).reverse =
      joinWith ['\n'] (dropTrailEmpty (L.dropWhile List.isEmpty)) := by
    rw [joinWith_reverse]
    rw [show (['\n'] : Str).reverse = ['\n'] from rfl]
    congr 1
    rw [← List.map_reverse List.reverse]
    rw [List.reverse_reverse, List.map_map]
    have hid : (List.reverse ∘ (List.reverse : Str → Str)) = id :=
      funext fun x => List.reverse_reverse x
    rw [hid, List.map_id]
  rw [hfin]
  rfl

theorem dropWhile_mem {α : Type} {p : α → Bool} {L : List α} {l : α}
    (h : l ∈ L.dropWhile p) : l ∈ L := by
  rw [← List.takeWhile_append_dropWhile p L]
  exact List.mem_append_right _ h

theorem dropTrail_mem {L : List Str} {l : Str} (h : l ∈ dropTrailEmpty L) : l ∈ L := by
  unfold dropTrailEmpty at h
  rw [List.mem_reverse] at h
  exact List.mem_reverse.mp (dropWhile_mem h)

theorem trimEnds_mem {L : List Str} {l : Str} (h : l ∈ trimEnds L) : l ∈ L :=
  dropWhile_mem (dropTrail_mem h)

theorem noDB_append_right : ∀ (A B : List Str), noDB (A ++ B) = true → noDB B = true := by
  intro A
  induction A with
  | nil =>
    intro B h
    exact h
  | cons a A' ih =>
    intro B h
    have h' : noDB (a :: (A' ++ B)) = true := h
    exact ih B (noDB_tail h')

theorem noDB_append_left : ∀ (A B : List Str), noDB (A ++ B) = true → noDB A = true := by
  intro A
  induction A with
  | nil =>
    intro B _
    rfl
  | cons a A' ih =>
    intro B h
    cases A' with
    | nil => rfl
    | cons a2 A'' =>
      have h' : (!(a.isEmpty && a2.isEmpty) && noDB ((a2 :: A'') ++ B)) = true := h
      obtain ⟨h1, h2⟩ := (Bool.and_eq_true _ _).mp h'
      have h3 : noDB (a2 :: A'') = true := ih B h2
      show (!(a.isEmpty && a2.isEmpty) && noDB (a2 :: A'')) = true
      rw [h1, h3]
      rfl

theorem dropTrail_decomp (L : List Str) :
    L = dropTrailEmpty L ++ (L.reverse.takeWhile List.isEmpty).reverse := by
  unfold dropTrailEmpty
  conv_rhs => rw [← List.reverse_append, List.takeWhile_append_dropWhile, List.reverse_reverse]

theorem dropTrail_noDB {L : List Str} (h : noDB L = true) :
    noDB (dropTrailEmpty L) = true := by
  apply noDB_append_left (dropTrailEmpty L) ((L.reverse.takeWhile List.isEmpty).reverse)
  rw [← dropTrail_decomp L]
  exact h

theorem dropWhile_noDB {L : List Str} (h : noDB L = true) :
    noDB (L.dropWhile List.isEmpty) = true := by
  apply noDB_append_right (L.takeWhile List.isEmpty)
  rw [List.takeWhile_append_dropWhile]
  exact h

theorem trimEnds_noDB {L : List Str} (h : noDB L = true) : noDB (trimEnds L) = true :=
  dropTrail_noDB (dropWhile_noDB h)

theorem trimEnds_head (L : List Str) : ∀ m ms, trimEnds L = m :: ms → m ≠ [] := by
  intro m ms hm hmnil
  subst hmnil
  have hpre := dropTrail_decomp (L.dropWhile List.isEmpty)
  rw [show dropTrailEmpty (L.dropWhile List.isEmpty) = trimEnds L from rfl, hm,
    List.cons_append] at hpre
  have hfalse : List.isEmpty ([] : Str) = false := dw_head_false hpre
  exact absurd hfalse (by simp)

theorem trimEnds_last (L : List Str) : ∀ m ms, (trimEnds L).reverse = m :: ms → m ≠ [] := by
  intro m ms hm hmnil
  subst hmnil
  have he : (trimEnds L).reverse =
      (L.dropWhile List.isEmpty).reverse.dropWhile List.isEmpty := by
    show (dropTrailEmpty (L.dropWhile List.isEmpty)).reverse = _
    unfold dropTrailEmpty
    rw [List.reverse_reverse]
  rw [he] at hm
  have hfalse : List.isEmpty ([] : Str) = false := dw_head_false hm
  exact absurd hfalse (by simp)

/-- A string is in get_text normal form: a newline join of in-line-normal
lines with no adjacent blank lines and nonempty first and last lines. -/
def Normalized (s : Str) : Prop :=
  ∃ L, s = joinWith ['\n'] L ∧ (∀ l ∈ L, lineNormal l) ∧ noDB L = true ∧
    (∀ m ms, L = m :: ms → m ≠ []) ∧ (∀ m ms, L.reverse = m :: ms → m ≠ [])

/-- The output of get_text is always in normal form. -/
theorem getText_normalized (s : Str) : Normalized (getText s) := by
  have hnorm : ∀ l ∈ collapseBlanks ((pySplitlines s).map cleanLine), lineNormal l := by
    intro l hl
    rcases collapse_mem _ _ l hl with h1 | h1
    · obtain ⟨l0, _, hleq⟩ := List.mem_map.mp h1
      rw [← hleq]
      exact lineNormal_clean l0
    · rw [h1]
      exact lineNormal_nil
  have hg : getText s =
      joinWith ['\n'] (trimEnds (collapseBlanks ((pySplitlines s).map cleanLine))) :=
    strip_joinWith _ hnorm
  refine ⟨trimEnds (collapseBlanks ((pySplitlines s).map cleanLine)), hg, ?_, ?_, ?_, ?_⟩
  · intro l hl
    exact hnorm l (trimEnds_mem hl)
  · exact trimEnds_noDB (collapse_noDB _ false)
  · exact trimEnds_head _
  · exact trimEnds_last _

/-- get_text is the identity on strings already in normal form. -/
theorem getText_of_normalized {s : Str} (h : Normalized s) : getText s = s := by
  obtain ⟨L, hs, hnorm, hdb, hhead, hlast⟩ := h
  subst hs
  have hbr : ∀ l ∈ L, ∀ c ∈ l, lineBreak c = false := fun l hl => line_no_break (hnorm l hl)
  have hsl : pySplitlines (joinWith ['\n'] L) = L := pySplitlines_joinWith L hbr hlast
  show pyStrip (joinWith ['\n']
    (collapseBlanks ((pySplitlines (joinWith ['\n'] L)).map cleanLine))) = _
  rw [hsl]
  have hmap : L.map cleanLine = L := by
    have h1 : L.map cleanLine = L.map id := List.map_congr_left fun l hl => hnorm l hl
    rw [h1, List.map_id]
  rw [hmap]
  have hcol : collapseBlanks L = L := (collapse_fix L hdb).1
  rw [hcol, strip_joinWith L hnorm]
  have h1 : L.dropWhile List.isEmpty = L := by
    cases L with
    | nil => rfl
    | cons m ms =>
      rw [List.dropWhile_cons,
        if_neg (by rw [isEmpty_false_of_ne_nil (hhead m ms rfl)]; exact Bool.false_ne_true)]
  have h2 : dropTrailEmpty L = L := by
    unfold dropTrailEmpty
    rcases hr : L.reverse with _ | ⟨m, ms⟩
    · have hL : L = [] := by
        rw [← List.reverse_reverse L, hr]
        rfl
      rw [hL]
      rfl
    · rw [List.dropWhile_cons,
        if_neg (by rw [isEmpty_false_of_ne_nil (hlast m ms hr)]; exact Bool.false_ne_true)]
      rw [← hr, List.reverse_reverse]
  show joinWith ['\n'] (trimEnds L) = joinWith ['\n'] L
  unfold trimEnds
  rw [h1, h2]

/-- C5, confirmed: the block-text whitespace normalization performed by
SectionTextExtractor.get_text (collapse in-line whitespace runs to single
spaces, collapse consecutive blank lines to at most one, trim
leading/trailing blank content) is idempotent: applying it twice yields
the same string as applying it once, for every input string. -/
theorem getText_idempotent (s : Str) : getText (getText s) = getText s :=
  getText_of_normalized (getText_normalized s)

/-- The shared tail of SECTION_LABEL_RE = r"^(Secs?)\.\s+([^\.]+)\.\s*(.*)$"
after the literal "Sec." or "Secs.": the greedy and backtracking choices
are resolved in closed form.  With w the length of the maximal leading
whitespace run and p the index of the first dot, \s+ backtracks until the
nonempty non-dot group can end at that dot, so the group spans from
min w (p-1) (which must be at least 1) to p.  After the dot, \s* takes the
maximal whitespace run; (.*) cannot cross a newline and $ only matches at
the end or before one final newline, so the match succeeds exactly when at
most one final newline follows the remainder's first newline. -/
def matchLabelCore (r : Str) : Option (Str × Str) :=
  match r.findIdx? (· == '.') with
  | none => none
  | some p =>
    if (r.takeWhile pySpace).length = 0 || p < 2 then none
    else
      if ((r.drop (p + 1)).dropWhile pySpace).drop
          ((((r.drop (p + 1)).dropWhile pySpace).takeWhile (· != '\n')).length) = [] ||
        ((r.drop (p + 1)).dropWhile pySpace).drop
          ((((r.drop (p + 1)).dropWhile pySpace).takeWhile (· != '\n')).length) = ['\n'] then
        some ((r.take p).drop (min ((r.takeWhile pySpace).length) (p - 1)),
          ((r.drop (p + 1)).dropWhile pySpace).takeWhile (· != '\n'))
      else none

/-- SECTION_LABEL_RE applied to a label: none, or
(plural?, designator-list group, title group).  "Secs?" is greedy, so
"Secs." is preferred and either literal must be followed by the dot. -/
def matchSectionLabel (l : Str) : Option (Bool × Str × Str) :=
  match l with
  | 'S' :: 'e' :: 'c' :: rest =>
    match rest with
    | 's' :: '.' :: r =>
      match matchLabelCore r with
      | some (g2, g3) => some (true, g2, g3)
      | none => none
    | '.' :: r =>
      match matchLabelCore r with
      | some (g2, g3) => some (false, g2, g3)
      | none => none
    | _ => none
  | _ => none

/-- Case-insensitive literal "to" at the head of a string. -/
def isToAt : Str → Bool
  | t :: o :: _ => (t == 't' || t == 'T') && (o == 'o' || o == 'O')
  | _ => false

/-- The tail \s+to\s+([^,]+) of SECTION_RANGE_RE, with each greedy
whitespace run tried from longest to shortest (the later run backtracks
first, matching the regex engine's order). -/
def rangeTailMatch (rest : Str) : Option Str :=
  (((List.range ((rest.takeWhile pySpace).length)).reverse).map (· + 1)).findSome? fun k =>
    if isToAt (rest.drop k) then
      (((List.range (((rest.drop (k + 2)).takeWhile pySpace).length)).reverse).map
          (· + 1)).findSome? fun m =>
        if ((rest.drop (k + 2)).drop m).takeWhile (· != ',') = [] then none
        else some (((rest.drop (k + 2)).drop m).takeWhile (· != ','))
    else none

/-- SECTION_RANGE_RE.match(number) = r"^(.+?)\s+to\s+([^,]+)" with
re.IGNORECASE: the lazy leading group takes the shortest nonempty prefix
(never crossing a newline) after which the rest of the pattern matches. -/
def matchRange (num : Str) : Option (Str × Str) :=
  ((List.range (match num.findIdx? (· == '\n') with
      | some i => i
      | none => num.length)).map (· + 1)).findSome? fun i =>
    match rangeTailMatch (num.drop i) with
    | some g2 => some (num.take i, g2)
    | none => none

/-- parse_label from src/parse_cga_to_sqlite.py: the quadruple
(section_number, section_title, range_start, range_end) with None/NULL as
Option.none. -/
def parseLabel (l : Str) : Option Str × Option Str × Option Str × Option Str :=
  if l.isEmpty then (none, none, none, none)
  else
    match matchSectionLabel l with
    | none => (none, none, none, none)
    | some (plural, g2, g3) =>
      if plural then
        match matchRange (pyStrip g2) with
        | some (a, b) =>
          (some (pyStrip g2),
            if (pyStrip g3).isEmpty then none else some (pyStrip g3),
            some (pyStrip a), some (pyStrip b))
        | none =>
          (some (pyStrip g2),
            if (pyStrip g3).isEmpty then none else some (pyStrip g3), none, none)
      else
        (some (pyStrip g2),
          if (pyStrip g3).isEmpty then none else some (pyStrip g3),
          some (pyStrip g2), some (pyStrip g2))

/-- C7, confirmed: the label "Secs. 1-1 to 1-5. General Provisions."
yields range_start="1-1", range_end="1-5" and title "General Provisions."
(the plural catch-line's designator list is split on the word "to",
case-insensitively, up to the first comma); and every singular "Sec."
catch-line match sets both range_start and range_end to the single
designator (the stripped second group). -/
theorem parse_label_c7 :
    parseLabel "Secs. 1-1 to 1-5. General Provisions.".toList =
      (some "1-1 to 1-5".toList, some "General Provisions.".toList,
        some "1-1".toList, some "1-5".toList) ∧
    (∀ (l g2 g3 : Str), matchSectionLabel l = some (false, g2, g3) →
      parseLabel l = (some (pyStrip g2),
        (if (pyStrip g3).isEmpty then none else some (pyStrip g3)),
        some (pyStrip g2), some (pyStrip g2))) := by
  constructor
  · decide
  · intro l g2 g3 hm
    have hne : l.isEmpty = false := by
      cases l
      · cases hm
      · rfl
    unfold parseLabel
    rw [if_neg (by rw [hne]; exact Bool.false_ne_true), hm]
    rfl

/-- Witness for C7 at a concrete singular catch-line. -/
theorem parse_label_c7_witness :
    parseLabel "Sec. 2-3. Short title.".toList =
      (some "2-3".toList, some "Short title.".toList,
        some "2-3".toList, some "2-3".toList) := by
  have h := parse_label_c7.2 "Sec. 2-3. Short title.".toList "2-3".toList
    "Short title.".toList (by decide)
  rw [h]
  decide

/-- A roman-numeral letter or an ASCII digit, the class [IVXLC\d]. -/
def isRomanDigit (c : Char) : Bool :=
  c == 'I' || c == 'V' || c == 'X' || c == 'L' || c == 'C' || isDig c

/-- A roman-numeral letter, the class [IVXLC]. -/
def isRoman (c : Char) : Bool :=
  c == 'I' || c == 'V' || c == 'X' || c == 'L' || c == 'C'

/-- heading_re = r"^(?:PART|SUBPART|ARTICLE|CHAPTER)\s+[IVXLC\d]+$" on a
stripped line (the tested lines come from splitlines and were stripped, so
they contain no newline and $ is the end of the string). -/
def headingRe (l : Str) : Bool :=
  ["PART".toList, "SUBPART".toList, "ARTICLE".toList, "CHAPTER".toList].any fun w =>
    startsWithStr l w &&
      !((l.drop w.length).takeWhile pySpace).isEmpty &&
      !((l.drop w.length).dropWhile pySpace).isEmpty &&
      ((l.drop w.length).dropWhile pySpace).all isRomanDigit

/-- A character admitted after the first by caps_re. -/
def capsClass (c : Char) : Bool :=
  isUpperAscii c || pySpace c || c == '-' || c == ',' || c == '&'

/-- caps_re = r"^[A-Z][A-Z\s\-,&]+$" on a stripped, newline-free line. -/
def capsRe (l : Str) : Bool :=
  match l with
  | [] => false
  | c :: rest => isUpperAscii c && !rest.isEmpty && rest.all capsClass

/-- paren_heading_re = r"^\(([A-Z]|[IVXLC]+)\)$" on a stripped,
newline-free line. -/
def parenRe (l : Str) : Bool :=
  match l with
  | '(' :: rest =>
    (match rest.getLast? with
      | some c => c == ')'
      | none => false) &&
      ((rest.dropLast.length == 1 && rest.dropLast.all isUpperAscii) ||
        (!rest.dropLast.isEmpty && rest.dropLast.all isRoman))
  | _ => false

/-- The trailing-heading test trim_trailing_headings applies to the
stripped last line, in the source's order. -/
def isHeadingLine (line : Str) : Bool :=
  headingRe line || (capsRe line && decide (line.length ≤ 80)) || parenRe line

/-- The trimming loop of trim_trailing_headings on the reversed line list:
pop the last line while its stripped form is a heading, popping blank
lines after each removal.  The loop is entered with trailing blanks
already popped, so folding the inner blank-popping into the same
recursion is faithful to the source. -/
def trimLoopRev : List Str → List Str
  | [] => []
  | l :: rest =>
    if l.isEmpty then trimLoopRev rest
    else if isHeadingLine (pyStrip l) then trimLoopRev rest
    else l :: rest

/-- trim_trailing_headings from src/parse_cga_to_sqlite.py. -/
def trimTrailingHeadings (body : Str) : Str :=
  if body.isEmpty then body
  else
    pyStrip (joinWith ['\n']
      ((trimLoopRev ((pySplitlines body).reverse.dropWhile List.isEmpty)).reverse))

theorem trimLoopRev_stops : ∀ (L : List Str) (l : Str) (rest : List Str),
    trimLoopRev L = l :: rest → isHeadingLine (pyStrip l) = false ∧ l.isEmpty = false := by
  intro L
  induction L with
  | nil =>
    intro l rest h
    cases h
  | cons x xs ih =>
    intro l rest h
    by_cases he : x.isEmpty = true
    · rw [show trimLoopRev (x :: xs) = trimLoopRev xs from by
        simp only [trimLoopRev]; rw [if_pos he]] at h
      exact ih l rest h
    · by_cases hh : isHeadingLine (pyStrip x) = true
      · rw [show trimLoopRev (x :: xs) = trimLoopRev xs from by
          simp only [trimLoopRev]
          rw [if_neg he, if_pos hh]] at h
        exact ih l rest h
      · rw [show trimLoopRev (x :: xs) = x :: xs from by
          simp only [trimLoopRev]
          rw [if_neg he, if_neg hh]] at h
        cases h
        exact ⟨bool_not_true hh, bool_not_true he⟩

theorem trimLoopRev_suffix : ∀ L : List Str, ∃ t, L = t ++ trimLoopRev L := by
  intro L
  induction L with
  | nil => exact ⟨[], rfl⟩
  | cons x xs ih =>
    obtain ⟨t, ht⟩ := ih
    by_cases he : x.isEmpty = true
    · refine ⟨x :: t, ?_⟩
      rw [show trimLoopRev (x :: xs) = trimLoopRev xs from by
        simp only [trimLoopRev]; rw [if_pos he]]
      rw [List.cons_append, ← ht]
    · by_cases hh : isHeadingLine (pyStrip x) = true
      · refine ⟨x :: t, ?_⟩
        rw [show trimLoopRev (x :: xs) = trimLoopRev xs from by
          simp only [trimLoopRev]
          rw [if_neg he, if_pos hh]]
        rw [List.cons_append, ← ht]
      · refine ⟨[], ?_⟩
        rw [show trimLoopRev (x :: xs) = x :: xs from by
          simp only [trimLoopRev]
          rw [if_neg he, if_neg hh]]
        rfl

/-- C9, confirmed: trailing-heading trimming strips heading lines
("PART/ARTICLE/CHAPTER N", all-caps lines of at most 80 characters,
single parenthesized letters/roman numerals) repeatedly from the end of
the body until a non-heading line or an empty body remains.  The body
"Body text.\n\nARTICLE II" trims to "Body text."; the surviving line list
is always a final segment of the original whose last kept line (when one
exists) is neither blank nor a heading. -/
theorem trim_trailing_c9 :
    trimTrailingHeadings "Body text.\n\nARTICLE II".toList = "Body text.".toList ∧
    (∀ (body l : Str) (rest : List Str),
      trimLoopRev ((pySplitlines body).reverse.dropWhile List.isEmpty) = l :: rest →
      isHeadingLine (pyStrip l) = false ∧ l.isEmpty = false) ∧
    (∀ L : List Str, ∃ t, L = t ++ trimLoopRev L) := by
  refine ⟨by decide, ?_, trimLoopRev_suffix⟩
  intro body l rest h
  exact trimLoopRev_stops _ l rest h

/-- Witness for C9's general clause at a concrete body. -/
theorem trim_trailing_c9_witness :
    isHeadingLine (pyStrip "Body text.".toList) = false ∧
      List.isEmpty "Body text.".toList = false :=
  trim_trailing_c9.2.1 "Body text.\nPART IV".toList "Body text.".toList [] (by decide)

/-! ### update_prev_next: the corpus linker (C1, C8).

One `SRow` is a row of update_prev_next's query
(SELECT section_id, section_number, section_range_start, chapter_id,
title_id FROM sections WHERE section_number IS NOT NULL); the WHERE
filter is `rowsOf`.  `sectionLabel` carries the section_label column the
label_map query reads from the same table.  chapter_id and title_id may
be NULL (Python's None, a legal dict key), so they are Options. -/
structure SRow where
  sectionId : Str
  sectionNumber : Option Str
  rangeStart : Option Str
  chapterId : Option Str
  titleId : Option Str
  sectionLabel : Str
deriving DecidableEq

/-- The rows update_prev_next works on: WHERE section_number IS NOT NULL. -/
def rowsOf (sections : List SRow) : List SRow :=
  sections.filter fun r => r.sectionNumber.isSome

/-- The sort key computed for a row (see updSortKey / C4). -/
def rowKey (r : SRow) : Str :=
  updSortKey r.sectionId r.sectionNumber r.rangeStart

/-- dict.setdefault(key, []).append(item): extend the key's group, or
create it at the end, preserving Python's dict insertion order. -/
def groupAppend {κ β : Type} [BEq κ] (key : κ) (item : β) :
    List (κ × List β) → List (κ × List β)
  | [] => [(key, [item])]
  | (k, items) :: rest =>
    if k == key then (k, items ++ [item]) :: rest
    else (k, items) :: groupAppend key item rest

/-- One step of building by_title (`if title_id:` skips None and "").  The
Python items are (section_id, sort_key, chapter_id) triples whose third
component is never read, so the model keeps (section_id, sort_key) pairs. -/
def titleStep (acc : List (Str × List (Str × Str))) (r : SRow) :
    List (Str × List (Str × Str)) :=
  match r.titleId with
  | some t => if t.isEmpty then acc else groupAppend t (r.sectionId, rowKey r) acc
  | none => acc

/-- by_title: rows grouped by truthy title_id, in row order. -/
def byTitle (rows : List SRow) : List (Str × List (Str × Str)) :=
  rows.foldl titleStep []

/-- One step of building by_chapter; the unread third component (title_id)
is dropped as in titleStep. -/
def chapStep (acc : List (Option Str × List (Str × Str))) (r : SRow) :
    List (Option Str × List (Str × Str)) :=
  groupAppend r.chapterId (r.sectionId, rowKey r) acc

/-- by_chapter: every row grouped under its chapter_id (NULL included), in
row order. -/
def byChapter (rows : List SRow) : List (Option Str × List (Str × Str)) :=
  rows.foldl chapStep []

/-- items.sort(key=lambda item: item[1]): stable ascending sort on the
sort-key component, code-point string order. -/
def sortItems (items : List (Str × Str)) : List (Str × Str) :=
  stableSort (fun x y => !strLt y.2 x.2) items

/-- The (section_id, predecessor section_id) pairs a sorted items list
contributes: items[index - 1][0] for each index > 0, in order. -/
def consecPrev : List (Str × Str) → List (Str × Str)
  | [] => []
  | [_] => []
  | a :: b :: rest => (b.1, a.1) :: consecPrev (b :: rest)

/-- The (section_id, successor section_id) pairs a sorted items list
contributes: items[index + 1][0] while index + 1 < len(items), in order. -/
def consecNext : List (Str × Str) → List (Str × Str)
  | [] => []
  | [_] => []
  | a :: b :: rest => (a.1, b.1) :: consecNext (b :: rest)

/-- Python dict assignment d[k] = v (overwrite in place, append if new). -/
def dictSetStr (k v : Str) : List (Str × Str) → List (Str × Str)
  | [] => [(k, v)]
  | (k2, v2) :: rest =>
    if k2 == k then (k, v) :: rest else (k2, v2) :: dictSetStr k v rest

/-- Python dict lookup d.get(k) (None when absent). -/
def dictGetStr (k : Str) : List (Str × Str) → Option Str
  | [] => none
  | (k2, v) :: rest => if k2 == k then some v else dictGetStr k rest

/-- Record a run of assignments d[k] = v into a dict, in list order. -/
def addPairs (ps : List (Str × Str)) (d : List (Str × Str)) : List (Str × Str) :=
  ps.foldl (fun a p => dictSetStr p.1 p.2 a) d

/-- The prev_* dict of a grouping: per group, sort its items by key and
record each section's predecessor. -/
def buildPrevDict {κ : Type} (groups : List (κ × List (Str × Str))) :
    List (Str × Str) :=
  groups.foldl (fun acc g => addPairs (consecPrev (sortItems g.2)) acc) []

/-- The next_* dict of a grouping: per group, sort its items by key and
record each section's successor. -/
def buildNextDict {κ : Type} (groups : List (κ × List (Str × Str))) :
    List (Str × Str) :=
  groups.foldl (fun acc g => addPairs (consecNext (sortItems g.2)) acc) []

def prevTitleDict (sections : List SRow) : List (Str × Str) :=
  buildPrevDict (byTitle (rowsOf sections))

def nextTitleDict (sections : List SRow) : List (Str × Str) :=
  buildNextDict (byTitle (rowsOf sections))

def prevChapterDict (sections : List SRow) : List (Str × Str) :=
  buildPrevDict (byChapter (rowsOf sections))

def nextChapterDict (sections : List SRow) : List (Str × Str) :=
  buildNextDict (byChapter (rowsOf sections))

/-- label_map: {section_id: section_label} over ALL sections (unfiltered
query), later duplicates overwriting earlier ones. -/
def labelMap (sections : List SRow) : List (Str × Str) :=
  sections.foldl (fun acc r => dictSetStr r.sectionId r.sectionLabel acc) []

/-- One UPDATE tuple (prev_section_id, next_section_id, prev_section_label,
next_section_label, section_id). -/
structure LinkUpdate where
  prevId : Option Str
  nextId : Option Str
  prevLabel : Option Str
  nextLabel : Option Str
  sectionId : Str
deriving DecidableEq

/-- `if candidate and title_dict.get(section_id) != candidate: candidate =
None`: a falsy candidate (None or "") is left alone; a truthy one must be
confirmed by the title-scoped neighbor or is nulled. -/
def resolveCandidate (cand : Option Str) (titleNb : Option Str) : Option Str :=
  match cand with
  | none => none
  | some c => if c.isEmpty then some c else
      if titleNb == some c then some c else none

/-- `label_map.get(candidate) if candidate else None`. -/
def labelFor (cand : Option Str) (lm : List (Str × Str)) : Option Str :=
  match cand with
  | none => none
  | some c => if c.isEmpty then none else dictGetStr c lm

/-- The UPDATE tuple update_prev_next emits for one row. -/
def linkFor (sections : List SRow) (r : SRow) : LinkUpdate :=
  ⟨resolveCandidate (dictGetStr r.sectionId (prevChapterDict sections))
      (dictGetStr r.sectionId (prevTitleDict sections)),
    resolveCandidate (dictGetStr r.sectionId (nextChapterDict sections))
      (dictGetStr r.sectionId (nextTitleDict sections)),
    labelFor (resolveCandidate (dictGetStr r.sectionId (prevChapterDict sections))
      (dictGetStr r.sectionId (prevTitleDict sections))) (labelMap sections),
    labelFor (resolveCandidate (dictGetStr r.sectionId (nextChapterDict sections))
      (dictGetStr r.sectionId (nextTitleDict sections))) (labelMap sections),
    r.sectionId⟩

/-- update_prev_next from src/parse_cga_to_sqlite.py: the list of UPDATE
tuples it hands to executemany, one per filtered row, in row order. -/
def updatePrevNext (sections : List SRow) : List LinkUpdate :=
  (rowsOf sections).map (linkFor sections)

/-- groupAppend keeps an item-level invariant: if every stored item and the
new item satisfy P, so does every item afterwards. -/
theorem groupAppend_item_src {κ β : Type} [BEq κ] (P : β → Prop) (k : κ) (item : β)
    (gs : List (κ × List β)) (hgs : ∀ g ∈ gs, ∀ x ∈ g.2, P x) (hit : P item) :
    ∀ g ∈ groupAppend k item gs, ∀ x ∈ g.2, P x := by
  induction gs with
  | nil =>
    intro g hg x hx
    simp only [groupAppend, List.mem_singleton] at hg
    subst hg
    simp only [List.mem_singleton] at hx
    subst hx
    exact hit
  | cons hd rest ih =>
    obtain ⟨k0, items⟩ := hd
    intro g hg x hx
    simp only [groupAppend] at hg
    by_cases hk : (k0 == k) = true
    · rw [if_pos hk] at hg
      rcases List.mem_cons.mp hg with h1 | h2
      · subst h1
        rcases List.mem_append.mp hx with hx1 | hx2
        · exact hgs (k0, items) (List.mem_cons_self _ _) x hx1
        · simp only [List.mem_singleton] at hx2
          subst hx2
          exact hit
      · exact hgs g (List.mem_cons_of_mem _ h2) x hx
    · rw [if_neg hk] at hg
      rcases List.mem_cons.mp hg with h1 | h2
      · subst h1
        exact hgs (k0, items) (List.mem_cons_self _ _) x hx
      · exact ih (fun g2 hg2 => hgs g2 (List.mem_cons_of_mem _ hg2)) g h2 x hx

/-- Invariant transport through the by_chapter fold. -/
theorem chapFold_src (P : Str × Str → Prop) :
    ∀ (rows : List SRow) (acc : List (Option Str × List (Str × Str))),
      (∀ g ∈ acc, ∀ x ∈ g.2, P x) →
      (∀ r ∈ rows, P (r.sectionId, rowKey r)) →
      ∀ g ∈ rows.foldl chapStep acc, ∀ x ∈ g.2, P x
  | [], _, hacc, _ => hacc
  | r :: rs, acc, hacc, hrows => by
    simp only [List.foldl_cons]
    exact chapFold_src P rs (chapStep acc r)
      (groupAppend_item_src P _ _ acc hacc (hrows r (List.mem_cons_self _ _)))
      (fun r2 h2 => hrows r2 (List.mem_cons_of_mem _ h2))

/-- Invariant transport through the by_title fold: only rows whose title_id
is truthy contribute items. -/
theorem titleFold_src (P : Str × Str → Prop) :
    ∀ (rows : List SRow) (acc : List (Str × List (Str × Str))),
      (∀ g ∈ acc, ∀ x ∈ g.2, P x) →
      (∀ r ∈ rows, optTruthy r.titleId = true → P (r.sectionId, rowKey r)) →
      ∀ g ∈ rows.foldl titleStep acc, ∀ x ∈ g.2, P x
  | [], _, hacc, _ => hacc
  | r :: rs, acc, hacc, hrows => by
    simp only [List.foldl_cons]
    have hstep : ∀ g ∈ titleStep acc r, ∀ x ∈ g.2, P x := by
      intro g hg x hx
      rcases hti : r.titleId with _ | t
      · rw [titleStep, hti] at hg
        exact hacc g hg x hx
      · rw [titleStep, hti] at hg
        have hg2 : g ∈ (if t.isEmpty = true then acc
            else groupAppend t (r.sectionId, rowKey r) acc) := hg
        clear hg
        by_cases hte : t.isEmpty = true
        · rw [if_pos hte] at hg2
          exact hacc g hg2 x hx
        · rw [if_neg hte] at hg2
          have hte' : t.isEmpty = false := Bool.of_not_eq_true hte
          have htr : optTruthy r.titleId = true := by
            rw [hti]
            simp only [optTruthy, hte']
            rfl
          exact groupAppend_item_src P _ _ acc hacc
            (hrows r (List.mem_cons_self _ _) htr) g hg2 x hx
    exact titleFold_src P rs (titleStep acc r) hstep
      (fun r2 h2 => hrows r2 (List.mem_cons_of_mem _ h2))

/-- Every by_chapter item is (sectionId, rowKey) of one of the rows. -/
theorem byChapter_src (rows : List SRow) :
    ∀ g ∈ byChapter rows, ∀ x ∈ g.2,
      ∃ r, r ∈ rows ∧ x = (r.sectionId, rowKey r) :=
  chapFold_src _ rows [] (fun _ hg => absurd hg (List.not_mem_nil _))
    (fun r hr => ⟨r, hr, rfl⟩)

/-- Every by_title item is (sectionId, rowKey) of a row with truthy
title_id. -/
theorem byTitle_src (rows : List SRow) :
    ∀ g ∈ byTitle rows, ∀ x ∈ g.2,
      ∃ r, r ∈ rows ∧ x = (r.sectionId, rowKey r) ∧ optTruthy r.titleId = true :=
  titleFold_src _ rows [] (fun _ hg => absurd hg (List.not_mem_nil _))
    (fun r hr ht => ⟨r, hr, rfl, ht⟩)

/-- Membership after insertSorted comes from the new element or the run. -/
theorem insertSorted_mem {α : Type} (le : α → α → Bool) (a x : α) (l : List α)
    (h : x ∈ insertSorted le a l) : x = a ∨ x ∈ l := by
  induction l with
  | nil =>
    simp only [insertSorted, List.mem_singleton] at h
    exact Or.inl h
  | cons b bs ih =>
    simp only [insertSorted] at h
    by_cases hle : le a b = true
    · rw [if_pos hle] at h
      rcases List.mem_cons.mp h with h1 | h2
      · exact Or.inl h1
      · exact Or.inr h2
    · rw [if_neg hle] at h
      rcases List.mem_cons.mp h with h1 | h2
      · exact Or.inr (by rw [h1]; exact List.mem_cons_self _ _)
      · rcases ih h2 with h3 | h4
        · exact Or.inl h3
        · exact Or.inr (List.mem_cons_of_mem _ h4)

/-- stableSort does not invent elements. -/
theorem stableSort_mem {α : Type} (le : α → α → Bool) (x : α) (l : List α)
    (h : x ∈ stableSort le l) : x ∈ l := by
  induction l with
  | nil => simp only [stableSort] at h ⊢; exact h
  | cons a as ih =>
    simp only [stableSort] at h
    rcases insertSorted_mem le a x _ h with h1 | h2
    · rw [h1]; exact List.mem_cons_self _ _
    · exact List.mem_cons_of_mem _ (ih h2)

/-- Both components of a consecutive-successor pair are first components
of items of the list. -/
theorem consecNext_src (items : List (Str × Str)) (p : Str × Str)
    (h : p ∈ consecNext items) :
    (∃ it ∈ items, it.1 = p.1) ∧ (∃ it ∈ items, it.1 = p.2) := by
  induction items with
  | nil => simp [consecNext] at h
  | cons a tl ih =>
    cases tl with
    | nil => simp [consecNext] at h
    | cons b rest =>
      simp only [consecNext] at h
      rcases List.mem_cons.mp h with h1 | h2
      · subst h1
        exact ⟨⟨a, List.mem_cons_self _ _, rfl⟩,
          ⟨b, List.mem_cons_of_mem _ (List.mem_cons_self _ _), rfl⟩⟩
      · rcases ih h2 with ⟨⟨u, hu, hu1⟩, ⟨w, hw, hw1⟩⟩
        exact ⟨⟨u, List.mem_cons_of_mem _ hu, hu1⟩,
          ⟨w, List.mem_cons_of_mem _ hw, hw1⟩⟩

/-- Both components of a consecutive-predecessor pair are first components
of items of the list. -/
theorem consecPrev_src (items : List (Str × Str)) (p : Str × Str)
    (h : p ∈ consecPrev items) :
    (∃ it ∈ items, it.1 = p.1) ∧ (∃ it ∈ items, it.1 = p.2) := by
  induction items with
  | nil => simp [consecPrev] at h
  | cons a tl ih =>
    cases tl with
    | nil => simp [consecPrev] at h
    | cons b rest =>
      simp only [consecPrev] at h
      rcases List.mem_cons.mp h with h1 | h2
      · subst h1
        exact ⟨⟨b, List.mem_cons_of_mem _ (List.mem_cons_self _ _), rfl⟩,
          ⟨a, List.mem_cons_self _ _, rfl⟩⟩
      · rcases ih h2 with ⟨⟨u, hu, hu1⟩, ⟨w, hw, hw1⟩⟩
        exact ⟨⟨u, List.mem_cons_of_mem _ hu, hu1⟩,
          ⟨w, List.mem_cons_of_mem _ hw, hw1⟩⟩

/-- A successful dict lookup is a stored pair. -/
theorem dictGet_mem (k v : Str) (d : List (Str × Str))
    (h : dictGetStr k d = some v) : (k, v) ∈ d := by
  induction d with
  | nil => simp [dictGetStr] at h
  | cons hd rest ih =>
    obtain ⟨k1, v1⟩ := hd
    simp only [dictGetStr] at h
    by_cases hk : (k1 == k) = true
    · rw [if_pos hk] at h
      injection h with hv
      have : (k, v) = (k1, v1) := by rw [eq_of_beq hk, hv]
      rw [this]
      exact List.mem_cons_self _ _
    · rw [if_neg hk] at h
      exact List.mem_cons_of_mem _ (ih h)

/-- dict assignment adds the pair or keeps stored pairs. -/
theorem dictSet_sub (k0 v0 : Str) (d : List (Str × Str)) :
    ∀ x ∈ dictSetStr k0 v0 d, x = (k0, v0) ∨ x ∈ d := by
  induction d with
  | nil =>
    intro x hx
    simp only [dictSetStr, List.mem_singleton] at hx
    exact Or.inl hx
  | cons hd rest ih =>
    obtain ⟨k1, v1⟩ := hd
    intro x hx
    simp only [dictSetStr] at hx
    by_cases hk : (k1 == k0) = true
    · rw [if_pos hk] at hx
      rcases List.mem_cons.mp hx with h1 | h2
      · exact Or.inl h1
      · exact Or.inr (List.mem_cons_of_mem _ h2)
    · rw [if_neg hk] at hx
      rcases List.mem_cons.mp hx with h1 | h2
      · exact Or.inr (by rw [h1]; exact List.mem_cons_self _ _)
      · rcases ih x h2 with h3 | h4
        · exact Or.inl h3
        · exact Or.inr (List.mem_cons_of_mem _ h4)

/-- Recording a run of assignments only stores those pairs or old ones. -/
theorem addPairs_sub :
    ∀ (ps : List (Str × Str)) (d : List (Str × Str)),
      ∀ x ∈ addPairs ps d, x ∈ ps ∨ x ∈ d
  | [], _, _, hx => Or.inr hx
  | p :: ps, d, x, hx => by
    simp only [addPairs, List.foldl_cons] at hx
    rcases addPairs_sub ps (dictSetStr p.1 p.2 d) x hx with h1 | h2
    · exact Or.inl (List.mem_cons_of_mem _ h1)
    · rcases dictSet_sub p.1 p.2 d x h2 with h3 | h4
      · exact Or.inl (by rw [h3, Prod.mk.eta]; exact List.mem_cons_self _ _)
      · exact Or.inr h4

/-- Every pair stored by a build-dict fold comes from some group's
consecutive pairs (the fold starts from an accumulator). -/
theorem buildFold_sub {κ : Type} (consec : List (Str × Str) → List (Str × Str)) :
    ∀ (groups : List (κ × List (Str × Str))) (acc : List (Str × Str)),
      ∀ x ∈ groups.foldl (fun a g => addPairs (consec (sortItems g.2)) a) acc,
        (∃ g, g ∈ groups ∧ x ∈ consec (sortItems g.2)) ∨ x ∈ acc
  | [], _, _, hx => Or.inr hx
  | g :: gs, acc, x, hx => by
    simp only [List.foldl_cons] at hx
    rcases buildFold_sub consec gs (addPairs (consec (sortItems g.2)) acc) x hx
      with h1 | h2
    · rcases h1 with ⟨g2, hg2, hx2⟩
      exact Or.inl ⟨g2, List.mem_cons_of_mem _ hg2, hx2⟩
    · rcases addPairs_sub _ acc x h2 with h3 | h4
      · exact Or.inl ⟨g, List.mem_cons_self _ _, h3⟩
      · exact Or.inr h4

/-- A successful lookup in a built dict: both the key and the value are
first components of items of some group, hence satisfy the grouping's
item invariant. -/
theorem dictVal_src {κ : Type} (consec : List (Str × Str) → List (Str × Str))
    (hc : ∀ items p, p ∈ consec items →
      (∃ it ∈ items, it.1 = p.1) ∧ (∃ it ∈ items, it.1 = p.2))
    (groups : List (κ × List (Str × Str))) (P : Str × Str → Prop)
    (hg : ∀ g ∈ groups, ∀ x ∈ g.2, P x) (sid v : Str)
    (h : dictGetStr sid
      (groups.foldl (fun a g => addPairs (consec (sortItems g.2)) a) []) = some v) :
    (∃ it, P it ∧ it.1 = sid) ∧ (∃ it, P it ∧ it.1 = v) := by
  have hmem := dictGet_mem sid v _ h
  rcases buildFold_sub consec groups [] _ hmem with h1 | h2
  · rcases h1 with ⟨g, hgm, hp⟩
    rcases hc _ _ hp with ⟨⟨it1, hit1, h11⟩, ⟨it2, hit2, h21⟩⟩
    exact ⟨⟨it1, hg g hgm it1 (stableSort_mem _ _ _ hit1), h11⟩,
      ⟨it2, hg g hgm it2 (stableSort_mem _ _ _ hit2), h21⟩⟩
  · exact absurd h2 (List.not_mem_nil _)

/-- A value stored in either chapter-scope dict is the section_id of one of
the filtered rows. -/
theorem chapDict_val (sections : List SRow) (sid v : Str)
    (h : dictGetStr sid (nextChapterDict sections) = some v ∨
      dictGetStr sid (prevChapterDict sections) = some v) :
    ∃ r, r ∈ rowsOf sections ∧ v = r.sectionId := by
  have hsrc := byChapter_src (rowsOf sections)
  rcases h with h | h
  · rcases (dictVal_src consecNext consecNext_src _ _ hsrc sid v h).2
      with ⟨it, ⟨r, hr, hit⟩, h1⟩
    exact ⟨r, hr, by rw [← h1, hit]⟩
  · rcases (dictVal_src consecPrev consecPrev_src _ _ hsrc sid v h).2
      with ⟨it, ⟨r, hr, hit⟩, h1⟩
    exact ⟨r, hr, by rw [← h1, hit]⟩

/-- A key stored in either title-scope dict is the section_id of a filtered
row whose title_id is truthy. -/
theorem titleDict_key (sections : List SRow) (sid v : Str)
    (h : dictGetStr sid (nextTitleDict sections) = some v ∨
      dictGetStr sid (prevTitleDict sections) = some v) :
    ∃ r, r ∈ rowsOf sections ∧ sid = r.sectionId ∧ optTruthy r.titleId = true := by
  have hsrc := byTitle_src (rowsOf sections)
  rcases h with h | h
  · rcases (dictVal_src consecNext consecNext_src _ _ hsrc sid v h).1
      with ⟨it, ⟨r, hr, hit, htr⟩, h1⟩
    exact ⟨r, hr, by rw [← h1, hit], htr⟩
  · rcases (dictVal_src consecPrev consecPrev_src _ _ hsrc sid v h).1
      with ⟨it, ⟨r, hr, hit, htr⟩, h1⟩
    exact ⟨r, hr, by rw [← h1, hit], htr⟩

/-- A map with no duplicate images is injective on the list. -/
theorem map_nodup_inj {α β : Type} (f : α → β) (l : List α)
    (h : (l.map f).Nodup) :
    ∀ x ∈ l, ∀ y ∈ l, f x = f y → x = y := by
  induction l with
  | nil => intro x hx; exact absurd hx (List.not_mem_nil _)
  | cons a tl ih =>
    rw [List.map_cons, List.nodup_cons] at h
    intro x hx y hy hf
    rcases List.mem_cons.mp hx with hx1 | hx2
    · rcases List.mem_cons.mp hy with hy1 | hy2
      · rw [hx1, hy1]
      · exfalso
        apply h.1
        have hfa : f a = f y := by rw [← hx1]; exact hf
        rw [hfa]
        exact List.mem_map_of_mem f hy2
    · rcases List.mem_cons.mp hy with hy1 | hy2
      · exfalso
        apply h.1
        have hfa : f a = f x := by rw [← hy1]; exact hf.symm
        rw [hfa]
        exact List.mem_map_of_mem f hx2
      · exact ih h.2 x hx2 y hy2 hf

/-- groupAppend puts the new item into a group carrying its key. -/
theorem groupAppend_mem_new {κ β : Type} [BEq κ] [LawfulBEq κ] (k : κ) (item : β)
    (gs : List (κ × List β)) :
    ∃ g ∈ groupAppend k item gs, g.1 = k ∧ item ∈ g.2 := by
  induction gs with
  | nil =>
    exact ⟨(k, [item]), List.mem_singleton.mpr rfl, rfl, List.mem_singleton.mpr rfl⟩
  | cons hd rest ih =>
    obtain ⟨k0, items⟩ := hd
    simp only [groupAppend]
    by_cases hk : (k0 == k) = true
    · rw [if_pos hk]
      exact ⟨(k0, items ++ [item]), List.mem_cons_self _ _, eq_of_beq hk,
        List.mem_append.mpr (Or.inr (List.mem_singleton.mpr rfl))⟩
    · rw [if_neg hk]
      rcases ih with ⟨g, hg, h1, h2⟩
      exact ⟨g, List.mem_cons_of_mem _ hg, h1, h2⟩

/-- groupAppend keeps every stored item in a group with the same key. -/
theorem groupAppend_mem_pres {κ β : Type} [BEq κ] (k : κ) (item : β)
    (gs : List (κ × List β)) (k0 : κ) (x : β)
    (h : ∃ g ∈ gs, g.1 = k0 ∧ x ∈ g.2) :
    ∃ g ∈ groupAppend k item gs, g.1 = k0 ∧ x ∈ g.2 := by
  induction gs with
  | nil =>
    rcases h with ⟨g, hg, _⟩
    exact absurd hg (List.not_mem_nil _)
  | cons hd rest ih =>
    obtain ⟨k1, items⟩ := hd
    rcases h with ⟨g, hg, h1, h2⟩
    simp only [groupAppend]
    by_cases hk : (k1 == k) = true
    · rw [if_pos hk]
      rcases List.mem_cons.mp hg with hg1 | hg2
      · subst hg1
        exact ⟨(k1, items ++ [item]), List.mem_cons_self _ _, h1,
          List.mem_append.mpr (Or.inl h2)⟩
      · exact ⟨g, List.mem_cons_of_mem _ hg2, h1, h2⟩
    · rw [if_neg hk]
      rcases List.mem_cons.mp hg with hg1 | hg2
      · exact ⟨g, by rw [hg1]; exact List.mem_cons_self _ _, h1, h2⟩
      · rcases ih ⟨g, hg2, h1, h2⟩ with ⟨g2, hgg, hh1, hh2⟩
        exact ⟨g2, List.mem_cons_of_mem _ hgg, hh1, hh2⟩

/-- Through the by_chapter fold, a row of the input (or an item already
grouped) ends up grouped under its chapter_id. -/
theorem chapFold_mem :
    ∀ (rows : List SRow) (acc : List (Option Str × List (Str × Str))) (s : SRow),
      (s ∈ rows ∨ ∃ g ∈ acc, g.1 = s.chapterId ∧ (s.sectionId, rowKey s) ∈ g.2) →
      ∃ g ∈ rows.foldl chapStep acc, g.1 = s.chapterId ∧ (s.sectionId, rowKey s) ∈ g.2
  | [], _, _, h => by
    rcases h with h | h
    · exact absurd h (List.not_mem_nil _)
    · exact h
  | r :: rs, acc, s, h => by
    simp only [List.foldl_cons]
    apply chapFold_mem rs (chapStep acc r) s
    rcases h with h | h
    · rcases List.mem_cons.mp h with h1 | h2
      · right
        subst h1
        exact groupAppend_mem_new s.chapterId _ acc
      · exact Or.inl h2
    · right
      exact groupAppend_mem_pres _ _ acc _ _ h

/-- Every filtered row participates in the chapter-scoped grouping, under
its own chapter_id. -/
theorem byChapter_mem (rows : List SRow) (s : SRow) (hs : s ∈ rows) :
    ∃ g ∈ byChapter rows, g.1 = s.chapterId ∧ (s.sectionId, rowKey s) ∈ g.2 :=
  chapFold_mem rows [] s (Or.inl hs)

/-- The candidate resolution of update_prev_next, abstractly: the result is
null, or it equals both the chapter-scope lookup and the title-scope lookup
(the chapter dict's values are section ids, hence nonempty). -/
theorem resolve_agree (sections : List SRow)
    (hne : ∀ r ∈ sections, r.sectionId ≠ [])
    (cd td : List (Str × Str)) (sid : Str)
    (hval : ∀ v, dictGetStr sid cd = some v →
      ∃ r, r ∈ rowsOf sections ∧ v = r.sectionId) :
    resolveCandidate (dictGetStr sid cd) (dictGetStr sid td) = none ∨
      (dictGetStr sid cd = resolveCandidate (dictGetStr sid cd) (dictGetStr sid td) ∧
        dictGetStr sid td = resolveCandidate (dictGetStr sid cd) (dictGetStr sid td)) := by
  rcases hc : dictGetStr sid cd with _ | c
  · left
    rfl
  · rcases hval c hc with ⟨r, hr, hcr⟩
    have hcne : c ≠ [] := by rw [hcr]; exact hne r (List.mem_of_mem_filter hr)
    have hie : c.isEmpty = false := isEmpty_false_of_ne_nil hcne
    simp only [resolveCandidate]
    rw [hie, if_neg Bool.false_ne_true]
    by_cases ht : (dictGetStr sid td == some c) = true
    · rw [if_pos ht]
      exact Or.inr ⟨rfl, eq_of_beq ht⟩
    · rw [if_neg ht]
      exact Or.inl rfl

/-- Resolution against an absent title-scope neighbor is always null when
the chapter dict only stores section ids of rows (hence nonempty ids). -/
theorem resolve_no_title (sections : List SRow)
    (hne : ∀ r ∈ sections, r.sectionId ≠ []) (cd : List (Str × Str)) (sid : Str)
    (hval : ∀ v, dictGetStr sid cd = some v →
      ∃ r, r ∈ rowsOf sections ∧ v = r.sectionId) :
    resolveCandidate (dictGetStr sid cd) none = none := by
  rcases hc : dictGetStr sid cd with _ | c
  · rfl
  · rcases hval c hc with ⟨r, hr, hcr⟩
    have hcne : c ≠ [] := by rw [hcr]; exact hne r (List.mem_of_mem_filter hr)
    have hie : c.isEmpty = false := isEmpty_false_of_ne_nil hcne
    simp only [resolveCandidate]
    rw [hie, if_neg Bool.false_ne_true]
    rw [if_neg (show ¬((none == some c) = true) from fun h => Bool.false_ne_true h)]

/-- The A, X, B, C instance of C1: chapter ch1 holds A, B, C in that key
order, chapter ch2 holds X, and the common title t1 orders them A, X, B, C. -/
def c1Rows : List SRow :=
  [⟨"sec_1-1".toList, some "1-1".toList, none, some "ch1".toList,
      some "t1".toList, "Sec. 1-1.".toList⟩,
    ⟨"sec_1-2".toList, some "1-2".toList, none, some "ch2".toList,
      some "t1".toList, "Sec. 1-2.".toList⟩,
    ⟨"sec_1-3".toList, some "1-3".toList, none, some "ch1".toList,
      some "t1".toList, "Sec. 1-3.".toList⟩,
    ⟨"sec_1-4".toList, some "1-4".toList, none, some "ch1".toList,
      some "t1".toList, "Sec. 1-4.".toList⟩]

/-- C1: a section's final prev_section_id (and symmetrically
next_section_id) is the chapter-scoped neighbor only when the title-scoped
neighbor agrees, and is null otherwise: every emitted link is null or
equals both scopes' dictionary entries.  And on the A, X, B, C instance
(chapter order A, B, C; title order A, X, B, C with X in another chapter),
A gets next = null, not B; B–C agree in both scopes and stay linked. -/
theorem linker_consistency_c1 :
    (∀ (sections : List SRow), (∀ r ∈ sections, r.sectionId ≠ []) →
      ∀ u ∈ updatePrevNext sections,
        (u.prevId = none ∨
          (dictGetStr u.sectionId (prevChapterDict sections) = u.prevId ∧
            dictGetStr u.sectionId (prevTitleDict sections) = u.prevId)) ∧
        (u.nextId = none ∨
          (dictGetStr u.sectionId (nextChapterDict sections) = u.nextId ∧
            dictGetStr u.sectionId (nextTitleDict sections) = u.nextId))) ∧
    (updatePrevNext c1Rows).map (fun u => (u.sectionId, u.prevId, u.nextId)) =
      [("sec_1-1".toList, none, none),
        ("sec_1-2".toList, none, none),
        ("sec_1-3".toList, none, some "sec_1-4".toList),
        ("sec_1-4".toList, some "sec_1-3".toList, none)] := by
  constructor
  · intro sections hne u hu
    simp only [updatePrevNext, List.mem_map] at hu
    obtain ⟨r, hr, rfl⟩ := hu
    simp only [linkFor]
    constructor
    · exact resolve_agree sections hne _ _ r.sectionId
        (fun v hv => chapDict_val sections r.sectionId v (Or.inr hv))
    · exact resolve_agree sections hne _ _ r.sectionId
        (fun v hv => chapDict_val sections r.sectionId v (Or.inl hv))
  · decide

/-- C8: a filtered section whose title_id is falsy (NULL or "") is excluded
from the title-scoped grouping, still participates in the chapter-scoped
grouping under its own chapter_id, and its emitted update has null
prev/next ids and labels. -/
theorem untitled_unlinked_c8 (sections : List SRow) (s : SRow)
    (hs : s ∈ rowsOf sections) (ht : optTruthy s.titleId = false)
    (hne : ∀ r ∈ sections, r.sectionId ≠ [])
    (hnd : (sections.map SRow.sectionId).Nodup) :
    (∀ u ∈ updatePrevNext sections, u.sectionId = s.sectionId →
      u.prevId = none ∧ u.nextId = none ∧
        u.prevLabel = none ∧ u.nextLabel = none) ∧
    (∃ g ∈ byChapter (rowsOf sections), g.1 = s.chapterId ∧
      (s.sectionId, rowKey s) ∈ g.2) ∧
    (∀ g ∈ byTitle (rowsOf sections), (s.sectionId, rowKey s) ∉ g.2) := by
  have hinj := map_nodup_inj SRow.sectionId sections hnd
  have hsm : s ∈ sections := List.mem_of_mem_filter hs
  have htn : dictGetStr s.sectionId (nextTitleDict sections) = none := by
    rcases hv : dictGetStr s.sectionId (nextTitleDict sections) with _ | v
    · rfl
    · exfalso
      rcases titleDict_key sections s.sectionId v (Or.inl hv) with ⟨r, hr, hsid, htr⟩
      have hreq : r = s := hinj r (List.mem_of_mem_filter hr) s hsm hsid.symm
      rw [hreq, ht] at htr
      exact Bool.false_ne_true htr
  have htp : dictGetStr s.sectionId (prevTitleDict sections) = none := by
    rcases hv : dictGetStr s.sectionId (prevTitleDict sections) with _ | v
    · rfl
    · exfalso
      rcases titleDict_key sections s.sectionId v (Or.inr hv) with ⟨r, hr, hsid, htr⟩
      have hreq : r = s := hinj r (List.mem_of_mem_filter hr) s hsm hsid.symm
      rw [hreq, ht] at htr
      exact Bool.false_ne_true htr
  refine ⟨?_, byChapter_mem (rowsOf sections) s hs, ?_⟩
  · intro u hu husid
    simp only [updatePrevNext, List.mem_map] at hu
    obtain ⟨r, hr, rfl⟩ := hu
    have hrs : r.sectionId = s.sectionId := husid
    simp only [linkFor]
    rw [hrs, htn, htp]
    have hpc : resolveCandidate
        (dictGetStr s.sectionId (prevChapterDict sections)) none = none :=
      resolve_no_title sections hne _ s.sectionId
        (fun v hv => chapDict_val sections s.sectionId v (Or.inr hv))
    have hnc : resolveCandidate
        (dictGetStr s.sectionId (nextChapterDict sections)) none = none :=
      resolve_no_title sections hne _ s.sectionId
        (fun v hv => chapDict_val sections s.sectionId v (Or.inl hv))
    rw [hpc, hnc]
    exact ⟨rfl, rfl, rfl, rfl⟩
  · intro g hg hmem
    rcases byTitle_src (rowsOf sections) g hg _ hmem with ⟨r, hr, heq, htr⟩
    have hsid : s.sectionId = r.sectionId := congrArg Prod.fst heq
    have hreq : r = s := hinj r (List.mem_of_mem_filter hr) s hsm hsid.symm
    rw [hreq, ht] at htr
    exact Bool.false_ne_true htr

/-- A single untitled section, the witness input for C8. -/
def c8Row : SRow :=
  ⟨"sec_9".toList, some "9".toList, none, some "ch9".toList, none, "Sec. 9.".toList⟩

/-- Witness for C8 at a one-row table whose section has no title_id. -/
theorem untitled_unlinked_c8_witness :
    (∀ u ∈ updatePrevNext [c8Row], u.sectionId = c8Row.sectionId →
      u.prevId = none ∧ u.nextId = none ∧
        u.prevLabel = none ∧ u.nextLabel = none) ∧
    (∃ g ∈ byChapter (rowsOf [c8Row]), g.1 = c8Row.chapterId ∧
      (c8Row.sectionId, rowKey c8Row) ∈ g.2) ∧
    (∀ g ∈ byTitle (rowsOf [c8Row]), (c8Row.sectionId, rowKey c8Row) ∉ g.2) :=
  untitled_unlinked_c8 [c8Row] c8Row (by decide) (by decide) (by decide) (by decide)

/-! ### extract_sections_from_html (C10).

SECTION_START_RE is
  <span[^>]*class="catchln"[^>]*id="([^"]+)"[^>]*>   (IGNORECASE)
and extract_label's pattern is
  <span[^>]*class="catchln"[^>]*id="{escaped id}"[^>]*>(.*?)</span>
(IGNORECASE | DOTALL).  A greedy [^>]* tries its lengths longest first
under backtracking; a [^>]* (or [^"]+) directly followed by the literal
'>' (or '"') can only succeed on the maximal run, which the model exploits
where it holds.  Case-insensitivity is modelled at the ASCII level with
lowerChar, like the rest of the development. -/

/-- s starts with the literal pattern, ASCII-case-insensitively. -/
def startsWithCI : Str → Str → Bool
  | _, [] => true
  | [], _ :: _ => false
  | c :: cs, p :: ps => lowerChar c == lowerChar p && startsWithCI cs ps

/-- Descending search l = n, n - 1, …, 0: the order a greedy quantifier
offers its lengths to the rest of the pattern under backtracking. -/
def descFind {α : Type} (n : Nat) (f : Nat → Option α) : Option α :=
  ((List.range (n + 1)).reverse).findSome? f

/-- `[^>]*>`: the greedy run cannot contain '>', so only the maximal run
can be followed by the literal; returns the rest after the '>'. -/
def closeAngle (s : Str) : Option Str :=
  match s.dropWhile (fun c => !(c == '>')) with
  | [] => none
  | c :: rest => if c == '>' then some rest else none

/-- `([^"]+)"`: only the maximal quote-free run, which must be nonempty,
can be followed by the closing quote; returns (group, rest). -/
def idGroup (s : Str) : Option (Str × Str) :=
  if (s.takeWhile (fun c => !(c == '"'))).isEmpty then none
  else
    match s.dropWhile (fun c => !(c == '"')) with
    | [] => none
    | c :: rest =>
      if c == '"' then some (s.takeWhile (fun c => !(c == '"')), rest) else none

/-- SECTION_START_RE after `id="`: the capture group, its closing quote,
then `[^>]*>`. -/
def afterId (s : Str) : Option (Str × Str) :=
  match idGroup s with
  | none => none
  | some (g, rest5) =>
    match closeAngle rest5 with
    | none => none
    | some rest7 => some (g, rest7)

/-- SECTION_START_RE from its second `[^>]*` on: greedy lengths longest
first, then the literal `id="`, then the group and the tag close. -/
def startFromX2 (s : Str) : Option (Str × Str) :=
  descFind (s.takeWhile (fun c => !(c == '>'))).length (fun l2 =>
    if startsWithCI (s.drop l2) "id=\"".toList then afterId ((s.drop l2).drop 4)
    else none)

/-- SECTION_START_RE from its first `[^>]*` on: greedy lengths longest
first, then the literal `class="catchln"`, then the rest of the pattern. -/
def startFromX1 (s : Str) : Option (Str × Str) :=
  descFind (s.takeWhile (fun c => !(c == '>'))).length (fun l1 =>
    if startsWithCI (s.drop l1) "class=\"catchln\"".toList then
      startFromX2 ((s.drop l1).drop 15)
    else none)

/-- One attempt of SECTION_START_RE anchored at the head of s: the literal
`<span`, then the backtracking body; (group, rest after the match). -/
def startMatchAt (s : Str) : Option (Str × Str) :=
  if startsWithCI s "<span".toList then startFromX1 (s.drop 5) else none

/-- SECTION_START_RE.finditer: scan left to right, emit every leftmost
non-overlapping match as (group, start position), resuming after each
match.  Fuel-driven (every step consumes at least one character). -/
def findIterGo : Nat → Nat → Str → List (Str × Nat)
  | 0, _, _ => []
  | fuel + 1, pos, s =>
    match startMatchAt s with
    | some (g, rest) => (g, pos) :: findIterGo fuel (pos + (s.length - rest.length)) rest
    | none =>
      match s with
      | [] => []
      | _ :: cs => findIterGo fuel (pos + 1) cs

/-- The section markers of a document, as (section_id group, start). -/
def sectionMatches (doc : Str) : List (Str × Nat) :=
  findIterGo (doc.length + 1) 0 doc

/-- The lazy `(.*?)pat`: the shortest prefix followed by the literal, i.e.
the characters up to its first (case-insensitive) occurrence. -/
def lazyUpto (pat : Str) : Nat → Str → Option (Str × Str)
  | 0, _ => none
  | fuel + 1, s =>
    if startsWithCI s pat then some ([], s.drop pat.length)
    else
      match s with
      | [] => none
      | c :: cs =>
        match lazyUpto pat fuel cs with
        | some (g, rest) => some (c :: g, rest)
        | none => none

/-- extract_label's pattern from its second `[^>]*` on: the literal
`id="{section_id}"` (section_id is re.escape'd in the source, hence a
literal), then `[^>]*>`, then the lazy group up to `</span>` (DOTALL: the
group may span lines). -/
def labelFromX2 (sectionId : Str) (s : Str) : Option Str :=
  descFind (s.takeWhile (fun c => !(c == '>'))).length (fun l2 =>
    if startsWithCI (s.drop l2) ("id=\"".toList ++ sectionId ++ ['"']) then
      match closeAngle ((s.drop l2).drop (sectionId.length + 5)) with
      | none => none
      | some rest7 =>
        match lazyUpto "</span>".toList (rest7.length + 1) rest7 with
        | some (g, _) => some g
        | none => none
    else none)

/-- One attempt of extract_label's pattern anchored at the head of s. -/
def labelMatchAt (sectionId : Str) (s : Str) : Option Str :=
  if startsWithCI s "<span".toList then
    descFind ((s.drop 5).takeWhile (fun c => !(c == '>'))).length (fun l1 =>
      if startsWithCI ((s.drop 5).drop l1) "class=\"catchln\"".toList then
        labelFromX2 sectionId (((s.drop 5).drop l1).drop 15)
      else none)
  else none

/-- pattern.search: the leftmost position at which the label pattern
matches, scanning ascending. -/
def searchLabelGo (sectionId : Str) : Nat → Str → Option Str
  | 0, _ => none
  | fuel + 1, s =>
    match labelMatchAt sectionId s with
    | some g => some g
    | none =>
      match s with
      | [] => none
      | _ :: cs => searchLabelGo sectionId fuel cs

/-- re.sub(r"<[^>]+>", "", s): delete every leftmost tag; a '<' with no
nonempty '>'-free run before a closing '>' is no match and is kept. -/
def stripTagsGo : Nat → Str → Str
  | 0, s => s
  | fuel + 1, s =>
    match s with
    | [] => []
    | c :: cs =>
      if c == '<' then
        if (cs.takeWhile (fun x => !(x == '>'))).isEmpty then c :: stripTagsGo fuel cs
        else
          match cs.dropWhile (fun x => !(x == '>')) with
          | [] => c :: stripTagsGo fuel cs
          | _ :: rest => stripTagsGo fuel rest
      else c :: stripTagsGo fuel cs

def stripTags (s : Str) : Str := stripTagsGo (s.length + 1) s

/-- html.unescape, restricted to the five standard XML entities with their
semicolons (the only ones these documents' catch lines use); other
ampersands pass through unchanged, as in Python. -/
def unescapeGo : Nat → Str → Str
  | 0, s => s
  | fuel + 1, s =>
    match s with
    | [] => []
    | c :: cs =>
      if c == '&' then
        if startsWithStr cs "amp;".toList then '&' :: unescapeGo fuel (cs.drop 4)
        else if startsWithStr cs "lt;".toList then '<' :: unescapeGo fuel (cs.drop 3)
        else if startsWithStr cs "gt;".toList then '>' :: unescapeGo fuel (cs.drop 3)
        else if startsWithStr cs "quot;".toList then '"' :: unescapeGo fuel (cs.drop 5)
        else if startsWithStr cs "#39;".toList then
          Char.ofNat 39 :: unescapeGo fuel (cs.drop 4)
        else c :: unescapeGo fuel cs
      else c :: unescapeGo fuel cs

def unescapeHtml (s : Str) : Str := unescapeGo (s.length + 1) s

/-- extract_label from src/parse_cga_to_sqlite.py: search the fragment for
the catch-line span of this section_id; None when absent, else the span's
inner HTML with tags removed, entities unescaped, and whitespace
stripped. -/
def extractLabel (sectionHtml sectionId : Str) : Option Str :=
  match searchLabelGo sectionId (sectionHtml.length + 1) sectionHtml with
  | none => none
  | some labelHtml => some (pyStrip (unescapeHtml (stripTags labelHtml)))

/-- The label-derived fields of one emitted section record.  The text-block
fields (body, histories, citations, see_also) and title_id of the Python
dict do not bear on C10 and are not modelled. -/
structure SectionRec where
  sectionId : Str
  sectionNumber : Option Str
  sectionTitle : Option Str
  sectionLabel : Str
  rangeStart : Option Str
  rangeEnd : Option Str
deriving DecidableEq

/-- Attach each match's fragment end: the next match's start, or the
document length for the last one. -/
def withEnds (docLen : Nat) : List (Str × Nat) → List (Str × Nat × Nat)
  | [] => []
  | [(g, st)] => [(g, st, docLen)]
  | (g, st) :: (g2, st2) :: rest => (g, st, st2) :: withEnds docLen ((g2, st2) :: rest)

/-- The record one marker (section_id, start, end) yields: the fragment is
html_text[start:end], label = extract_label(fragment, id) or id, and the
number/title/range fields come from parse_label(label). -/
def mkRecord (doc : Str) (m : Str × Nat × Nat) : SectionRec :=
  ⟨m.1,
    (parseLabel (pyOrOpt (extractLabel ((doc.drop m.2.1).take (m.2.2 - m.2.1)) m.1) m.1)).1,
    (parseLabel (pyOrOpt (extractLabel ((doc.drop m.2.1).take (m.2.2 - m.2.1)) m.1) m.1)).2.1,
    pyOrOpt (extractLabel ((doc.drop m.2.1).take (m.2.2 - m.2.1)) m.1) m.1,
    (parseLabel (pyOrOpt (extractLabel ((doc.drop m.2.1).take (m.2.2 - m.2.1)) m.1) m.1)).2.2.1,
    (parseLabel (pyOrOpt (extractLabel ((doc.drop m.2.1).take (m.2.2 - m.2.1)) m.1) m.1)).2.2.2⟩

/-- extract_sections_from_html, projected to the modelled fields: one
record per marker, in document order. -/
def extractSections (doc : Str) : List SectionRec :=
  (withEnds doc.length (sectionMatches doc)).map (mkRecord doc)

/-- A falsy Python `or` operand falls through to the default. -/
theorem pyOrOpt_falsy (a : Option Str) (b : Str) (h : optTruthy a = false) :
    pyOrOpt a b = b := by
  cases a with
  | none => rfl
  | some s =>
    simp only [optTruthy] at h
    have hs : s.isEmpty = true := by
      cases hse : s.isEmpty
      · rw [hse] at h
        exact absurd h (by decide)
      · rfl
    simp only [pyOrOpt]
    rw [if_pos hs]

/-- C10 counterexample: a catch-line span never closed by `</span>` is
found by SECTION_START_RE but not by extract_label, so the label falls
back to the section_id — yet the emitted record's section_number,
section_title and ranges are NOT all null, because the id itself parses
as a label. -/
theorem fallback_label_c10_counterexample :
    extractLabel "<span class=\"catchln\" id=\"Sec. 9. Hi\">".toList
        "Sec. 9. Hi".toList = none ∧
      extractSections "<span class=\"catchln\" id=\"Sec. 9. Hi\">".toList =
        [⟨"Sec. 9. Hi".toList, some "9".toList, some "Hi".toList,
          "Sec. 9. Hi".toList, some "9".toList, some "9".toList⟩] := by
  decide

/-- C10, amended: every marker found yields exactly one record (none is
dropped), and when the catch-line label cannot be re-extracted (None or
empty), section_label falls back to the section_id and the number, title
and range fields are those of parse_label(section_id) — null whenever the
id does not itself parse as a label, but not null in general. -/
theorem fallback_label_c10 :
    (∀ doc : Str, (extractSections doc).length =
      (withEnds doc.length (sectionMatches doc)).length) ∧
    (∀ (doc : Str) (m : Str × Nat × Nat),
      m ∈ withEnds doc.length (sectionMatches doc) →
      optTruthy (extractLabel ((doc.drop m.2.1).take (m.2.2 - m.2.1)) m.1) = false →
      mkRecord doc m ∈ extractSections doc ∧
        (mkRecord doc m).sectionLabel = m.1 ∧
        (mkRecord doc m).sectionNumber = (parseLabel m.1).1 ∧
        (mkRecord doc m).sectionTitle = (parseLabel m.1).2.1 ∧
        (mkRecord doc m).rangeStart = (parseLabel m.1).2.2.1 ∧
        (mkRecord doc m).rangeEnd = (parseLabel m.1).2.2.2) := by
  constructor
  · intro doc
    simp only [extractSections, List.length_map]
  · intro doc m hm hf
    refine ⟨List.mem_map_of_mem _ hm, ?_, ?_, ?_, ?_, ?_⟩
    · simp only [mkRecord]
      exact pyOrOpt_falsy _ _ hf
    · simp only [mkRecord]
      rw [pyOrOpt_falsy _ _ hf]
    · simp only [mkRecord]
      rw [pyOrOpt_falsy _ _ hf]
    · simp only [mkRecord]
      rw [pyOrOpt_falsy _ _ hf]
    · simp only [mkRecord]
      rw [pyOrOpt_falsy _ _ hf]

end FastLaw
